import Mathlib

/-!
Verification of `rdleal/go-priorityq`, package `kpq` (file
`kpq/keyed_priority_queue.go`): a generic keyed priority queue backed by an
indexed binary heap.  The Go structure holds three co-indexed containers:
`pm : []K` (heap slot → key), `im : map[K]int` (key → heap slot) and
`vals : map[K]V` (key → priority value), ordered by a caller supplied
comparison function `cmp : V → V → Bool`.

Embedding conventions:
* Go maps are modeled as association lists (`List (K × A)`) with lookup,
  replace-or-append insertion and deletion; `len(m)` is the list length.
  All maps built by the operations keep their keys pairwise distinct.
* Go slices of keys are `List K`; out-of-range reads (which would panic in
  Go and never happen on the reachable states considered here) are totalized
  with `List.getD` and the `Inhabited` default.
* Go zero values (`var k K`) are `default` from the `Inhabited` instance.
* The comparison function is fixed at construction time and never mutated,
  so it is threaded as an explicit parameter `cmp` of each operation rather
  than stored in the state.
* The `sync.RWMutex` is a concurrency guard with no sequential semantics;
  every operation is modeled as the pure state transformer it performs
  under the lock.
-/

namespace Kpq

/-- Model of the two error values produced by the package: Go
`KeyAlreadyExistsError[K]` (returned by `Push` on a present key) and
`KeyNotFoundError[K]` (returned by `Update` on an absent key).  Each carries
the offending key, as the Go types do via their `Key()` method; the
human-readable message string is elided. -/
inductive KpqError (K : Type) where
  | keyAlreadyExists (k : K)
  | keyNotFound (k : K)

deriving instance DecidableEq for KpqError
deriving instance Repr for KpqError

variable {K V A : Type}

/-- Model of Go map lookup `a, ok := m[k]`: the value stored at the first
entry whose key is `k`, if any. -/
def mapGet [DecidableEq K] (m : List (K × A)) (k : K) : Option A :=
  match m with
  | [] => none
  | (k1, a) :: t => if k1 = k then some a else mapGet t k

/-- Model of Go map assignment `m[k] = a`: replace the value of the first
entry with key `k`, or append a fresh entry when `k` is absent. -/
def mapSet [DecidableEq K] (m : List (K × A)) (k : K) (a : A) : List (K × A) :=
  match m with
  | [] => [(k, a)]
  | (k1, a1) :: t => if k1 = k then (k, a) :: t else (k1, a1) :: mapSet t k a

/-- Model of Go `delete(m, k)`: drop every entry with key `k` (the maps built
by the queue operations have distinct keys, so at most one is dropped). -/
def mapDel [DecidableEq K] (m : List (K × A)) (k : K) : List (K × A) :=
  match m with
  | [] => []
  | (k1, a1) :: t => if k1 = k then mapDel t k else (k1, a1) :: mapDel t k

/-- The state of Go `KeyedPriorityQueue[K, V]`: position map `pm`,
inverse map `im` and priority values `vals` (the mutex field has no
sequential content and the fixed `cmp` field is threaded as a parameter). -/
structure KPQ (K V : Type) where
  pm : List K
  im : List (K × Nat)
  vals : List (K × V)

deriving instance DecidableEq for KPQ
deriving instance Repr for KPQ

/-- Go `leftChild(i) = (i * 2) + 1` on in-range (non-overflowing) indices.
The machine-integer overflow behavior is modeled separately by
`leftChild64`. -/
def leftChild (i : Nat) : Nat := i * 2 + 1

/-- Go `parent(i) = (i - 1) / 2`; for the `i > 0` arguments the code uses it
at, Nat truncated subtraction agrees with Go int arithmetic. -/
def parent (i : Nat) : Nat := (i - 1) / 2

variable [DecidableEq K] [Inhabited K] [Inhabited V]

/-- The key in heap slot `i`: Go `pq.pm[i]`. -/
def pmGet (q : KPQ K V) (i : Nat) : K := q.pm.getD i default

/-- The priority value stored for key `k`: Go `pq.vals[k]` (map read,
zero value when absent). -/
def valOfKey (q : KPQ K V) (k : K) : V := (mapGet q.vals k).getD default

/-- The priority value in heap slot `i`: Go `pq.vals[pq.pm[i]]`. -/
def val (q : KPQ K V) (i : Nat) : V := valOfKey q (pmGet q i)

/-- Go `pq.compare(i, j) = pq.cmp(pq.vals[pq.pm[i]], pq.vals[pq.pm[j]])`. -/
def compare (cmp : V → V → Bool) (q : KPQ K V) (i j : Nat) : Bool :=
  cmp (val q i) (val q j)

/-- Go `pq.swap(i, j)`:
`pq.pm[i], pq.pm[j] = pq.pm[j], pq.pm[i]` followed by
`pq.im[pq.pm[i]], pq.im[pq.pm[j]] = i, j` (the index expressions read the
already-swapped `pm`; the two map writes happen left to right). -/
def swap (q : KPQ K V) (i j : Nat) : KPQ K V :=
  let pm1 := (q.pm.set i (q.pm.getD j default)).set j (q.pm.getD i default)
  { pm := pm1
    im := mapSet (mapSet q.im (pm1.getD i default) i) (pm1.getD j default) j
    vals := q.vals }

/-- Go `pq.swim(i)`: while `i > 0 && pq.compare(i, parent(i))`, swap `i` with
its parent and continue from the parent slot. -/
def swim (cmp : V → V → Bool) (q : KPQ K V) (i : Nat) : KPQ K V :=
  if h : 0 < i ∧ compare cmp q i (parent i) = true then
    swim cmp (swap q i (parent i)) (parent i)
  else q
termination_by i
decreasing_by
  exact Nat.lt_of_le_of_lt (Nat.div_le_self _ 2) (Nat.pred_lt (Nat.pos_iff_ne_zero.mp h.1))

/-- Go `pq.sink(i, n)`: while `leftChild(i) < n`, pick the better of the two
children (`r = j + 1` considered only when `r < n`), stop if that child is
not better than slot `i`, else swap and continue from the child slot.  The
Go body's `if j < 0` test can only fire after machine-integer overflow and is
unreachable in Nat arithmetic; it is modeled faithfully by `sink64`. -/
def sink (cmp : V → V → Bool) (q : KPQ K V) (i n : Nat) : KPQ K V :=
  if h1 : leftChild i < n then
    if h2 : leftChild i + 1 < n ∧ compare cmp q (leftChild i + 1) (leftChild i) = true then
      if compare cmp q (leftChild i + 1) i = true then
        sink cmp (swap q i (leftChild i + 1)) (leftChild i + 1) n
      else q
    else
      if compare cmp q (leftChild i) i = true then
        sink cmp (swap q i (leftChild i)) (leftChild i) n
      else q
  else q
termination_by n - i
decreasing_by
  · have hij : i < leftChild i + 1 := by simp [leftChild]; omega
    omega
  · have hij : i < leftChild i := by simp [leftChild]; omega
    omega

/-- Go `NewKeyedPriorityQueue(cmp)`: panics when `cmp` is nil, otherwise
returns an empty queue.  A possibly-nil Go function value is modeled as an
`Option`; the panic is modeled as `Except.error` carrying the panic
message. -/
def NewKeyedPriorityQueue (cmp : Option (V → V → Bool)) :
    Except String (KPQ K V) :=
  match cmp with
  | none => Except.error "keyed priority queue: comparison function cannot be nil"
  | some _ => Except.ok { pm := [], im := [], vals := [] }

/-- Go `pq.Push(k, v)`: reject a present key with `KeyAlreadyExistsError`,
otherwise append `k` at the heap end, record its slot and value, and swim
it up.  The returned `Option` is the Go `error` result (`none` = nil). -/
def Push (cmp : V → V → Bool) (q : KPQ K V) (k : K) (v : V) :
    KPQ K V × Option (KpqError K) :=
  match mapGet q.im k with
  | some _ => (q, some (KpqError.keyAlreadyExists k))
  | none =>
    let n := q.pm.length
    let q0 : KPQ K V :=
      { pm := q.pm ++ [k], im := mapSet q.im k n, vals := mapSet q.vals k v }
    (swim cmp q0 n, none)

/-- Go `pq.Pop()`: on an empty queue return zero values and `false`;
otherwise swap the root with the last slot, sink the new root within the
shrunk bound, truncate `pm`, delete the popped key from both maps, and
return the old root's key and value with `true`. -/
def Pop (cmp : V → V → Bool) (q : KPQ K V) : KPQ K V × K × V × Bool :=
  if q.pm.length = 0 then (q, default, default, false)
  else
    let n := q.pm.length - 1
    let k := q.pm.getD 0 default
    let v := (mapGet q.vals k).getD default
    let q1 := sink cmp (swap q 0 n) 0 n
    ({ pm := q1.pm.take n, im := mapDel q1.im k, vals := mapDel q1.vals k },
      k, v, true)

/-- Go `pq.Update(k, v)`: reject an absent key with `KeyNotFoundError`,
otherwise overwrite the stored value and restore the heap property by a
swim followed by a sink from the key's slot (bound `len(pq.vals)`). -/
def Update (cmp : V → V → Bool) (q : KPQ K V) (k : K) (v : V) :
    KPQ K V × Option (KpqError K) :=
  match mapGet q.im k with
  | none => (q, some (KpqError.keyNotFound k))
  | some i =>
    let q0 : KPQ K V := { q with vals := mapSet q.vals k v }
    let q1 := swim cmp q0 i
    (sink cmp q1 i q1.vals.length, none)

/-- Go `pq.Peek()`: root key and value with `true`, or zero values with
`false` on an empty queue. -/
def Peek (q : KPQ K V) : K × V × Bool :=
  if q.pm.length = 0 then (default, default, false)
  else (q.pm.getD 0 default, (mapGet q.vals (q.pm.getD 0 default)).getD default, true)

/-- Go `pq.PeekKey()`. -/
def PeekKey (q : KPQ K V) : K × Bool :=
  if q.pm.length = 0 then (default, false)
  else (q.pm.getD 0 default, true)

/-- Go `pq.PeekValue()`. -/
def PeekValue (q : KPQ K V) : V × Bool :=
  if q.pm.length = 0 then (default, false)
  else ((mapGet q.vals (q.pm.getD 0 default)).getD default, true)

/-- Go `pq.Contains(k)`. -/
def Contains (q : KPQ K V) (k : K) : Bool :=
  (mapGet q.im k).isSome

/-- Go `pq.ValueOf(k)`: map read of `pq.vals[k]` with its `ok` flag. -/
def ValueOf (q : KPQ K V) (k : K) : V × Bool :=
  ((mapGet q.vals k).getD default, (mapGet q.vals k).isSome)

/-- Go `pq.Remove(k)`: no-op on an absent key; otherwise swap slot `i` with
the last slot `n` (skipped when `i == n`), sink then swim the displaced
slot, truncate `pm` and delete `k` from both maps. -/
def Remove (cmp : V → V → Bool) (q : KPQ K V) (k : K) : KPQ K V :=
  match mapGet q.im k with
  | none => q
  | some i =>
    let n := q.pm.length - 1
    let q1 := if i ≠ n then swim cmp (sink cmp (swap q i n) i n) i else q
    { pm := q1.pm.take n, im := mapDel q1.im k, vals := mapDel q1.vals k }

/-- Go `pq.Len()`. -/
def Len (q : KPQ K V) : Nat := q.pm.length

/-- Go `pq.IsEmpty()`. -/
def IsEmpty (q : KPQ K V) : Bool := q.pm.length == 0

/-! ### Association-list (Go map) and list lemmas -/

set_option linter.unusedSectionVars false

/-- The maps built by the queue operations keep their keys pairwise
distinct; this predicate states that of an association list. -/
def keysNodup (m : List (K × A)) : Prop := (m.map Prod.fst).Nodup

theorem getD_set_ne {l : List A} {i m : Nat} (x d : A) (h : i ≠ m) :
    (l.set i x).getD m d = l.getD m d := by
  simp [List.getD_eq_getElem?_getD, List.getElem?_set_ne h]

theorem getD_set_lt {l : List A} {i : Nat} (x d : A) (h : i < l.length) :
    (l.set i x).getD i d = x := by
  simp [List.getD_eq_getElem?_getD, List.getElem?_set_self',
    List.getElem?_eq_getElem h]

theorem set_getD_self {l : List A} {i : Nat} {d : A} :
    l.set i (l.getD i d) = l := by
  rcases Nat.lt_or_ge i l.length with h | h
  · apply List.ext_getElem?
    intro m
    rcases eq_or_ne i m with rfl | hne
    · simp [List.getElem?_set_self', List.getElem?_eq_getElem h,
        List.getD_eq_getElem?_getD]
    · simp [List.getElem?_set_ne hne]
  · exact List.set_eq_of_length_le h

theorem getD_append_lt {l : List A} {m : Nat} (x d : A) (h : m < l.length) :
    (l ++ [x]).getD m d = l.getD m d := by
  simp [List.getD_eq_getElem?_getD, List.getElem?_append_left h]

theorem getD_append_len {l : List A} (x d : A) :
    (l ++ [x]).getD l.length d = x := by
  simp [List.getD_eq_getElem?_getD]

theorem getD_take_lt {l : List A} {m n : Nat} (d : A) (h : m < n) :
    (l.take n).getD m d = l.getD m d := by
  simp [List.getD_eq_getElem?_getD, List.getElem?_take, h]

theorem mapGet_mapSet_self (m : List (K × A)) (k : K) (a : A) :
    mapGet (mapSet m k a) k = some a := by
  induction m with
  | nil => simp [mapGet, mapSet]
  | cons p t ih =>
    obtain ⟨k1, a1⟩ := p
    by_cases h : k1 = k <;> simp [mapGet, mapSet, h, ih]

theorem mapGet_mapSet_ne (m : List (K × A)) {k k' : K} (a : A) (h : k' ≠ k) :
    mapGet (mapSet m k a) k' = mapGet m k' := by
  induction m with
  | nil => simp [mapGet, mapSet, Ne.symm h]
  | cons p t ih =>
    obtain ⟨k1, a1⟩ := p
    by_cases h1 : k1 = k
    · subst h1
      simp [mapGet, mapSet, Ne.symm h]
    · simp only [mapSet, if_neg h1]
      by_cases h2 : k1 = k' <;> simp [mapGet, h2, ih]

theorem mapGet_mapDel_self (m : List (K × A)) (k : K) :
    mapGet (mapDel m k) k = none := by
  induction m with
  | nil => simp [mapGet, mapDel]
  | cons p t ih =>
    obtain ⟨k1, a1⟩ := p
    by_cases h : k1 = k <;> simp [mapGet, mapDel, h, ih]

theorem mapGet_mapDel_ne (m : List (K × A)) {k k' : K} (h : k' ≠ k) :
    mapGet (mapDel m k) k' = mapGet m k' := by
  induction m with
  | nil => simp [mapGet, mapDel]
  | cons p t ih =>
    obtain ⟨k1, a1⟩ := p
    by_cases h1 : k1 = k
    · subst h1
      simp [mapGet, mapDel, Ne.symm h, ih]
    · by_cases h2 : k1 = k' <;> simp [mapGet, mapDel, h1, h2, h, ih]

theorem length_mapSet_isSome {m : List (K × A)} {k : K} (a : A)
    (h : (mapGet m k).isSome) : (mapSet m k a).length = m.length := by
  induction m with
  | nil => simp [mapGet] at h
  | cons p t ih =>
    obtain ⟨k1, a1⟩ := p
    by_cases h1 : k1 = k
    · simp [mapSet, h1]
    · simp only [mapGet, if_neg h1] at h
      simp [mapSet, h1, ih h]

theorem length_mapSet_none {m : List (K × A)} {k : K} (a : A)
    (h : mapGet m k = none) : (mapSet m k a).length = m.length + 1 := by
  induction m with
  | nil => simp [mapSet]
  | cons p t ih =>
    obtain ⟨k1, a1⟩ := p
    by_cases h1 : k1 = k
    · simp [mapGet, h1] at h
    · simp only [mapGet, if_neg h1] at h
      simp [mapSet, h1, ih h]

theorem mapSet_append_of_none {m : List (K × A)} {k : K} (a : A)
    (h : mapGet m k = none) : mapSet m k a = m ++ [(k, a)] := by
  induction m with
  | nil => simp [mapSet]
  | cons p t ih =>
    obtain ⟨k1, a1⟩ := p
    by_cases h1 : k1 = k
    · simp [mapGet, h1] at h
    · simp only [mapGet, if_neg h1] at h
      simp [mapSet, h1, ih h]

theorem mapGet_eq_none_iff {m : List (K × A)} {k : K} :
    mapGet m k = none ↔ k ∉ m.map Prod.fst := by
  induction m with
  | nil => simp [mapGet]
  | cons p t ih =>
    obtain ⟨k1, a1⟩ := p
    by_cases h1 : k1 = k
    · subst h1
      simp [mapGet]
    · simp only [mapGet, if_neg h1, List.map_cons, List.mem_cons, ih]
      constructor
      · intro hk
        intro hor
        rcases hor with heq | hmem
        · exact h1 heq.symm
        · exact hk hmem
      · intro hk hmem
        exact hk (Or.inr hmem)

theorem mapDel_of_none {m : List (K × A)} {k : K}
    (h : mapGet m k = none) : mapDel m k = m := by
  induction m with
  | nil => simp [mapDel]
  | cons p t ih =>
    obtain ⟨k1, a1⟩ := p
    by_cases h1 : k1 = k
    · simp [mapGet, h1] at h
    · simp only [mapGet, if_neg h1] at h
      simp [mapDel, h1, ih h]

theorem mapDel_sublist (m : List (K × A)) (k : K) : (mapDel m k).Sublist m := by
  induction m with
  | nil => simp [mapDel]
  | cons p t ih =>
    obtain ⟨k1, a1⟩ := p
    by_cases h1 : k1 = k
    · rw [show mapDel ((k1, a1) :: t) k = mapDel t k by simp [mapDel, h1]]
      exact ih.trans (List.sublist_cons_self _ _)
    · rw [show mapDel ((k1, a1) :: t) k = (k1, a1) :: mapDel t k by
        simp [mapDel, h1]]
      exact List.Sublist.cons₂ _ ih

theorem mem_keys_mapSet {m : List (K × A)} {k k2 : K} {a : A} :
    k2 ∈ (mapSet m k a).map Prod.fst ↔ k2 = k ∨ k2 ∈ m.map Prod.fst := by
  induction m with
  | nil => simp [mapSet]
  | cons p t ih =>
    obtain ⟨k1, a1⟩ := p
    by_cases h1 : k1 = k
    · subst h1
      simp [mapSet]
    · simp [mapSet, h1, ih]
      tauto

theorem keysNodup_mapSet {m : List (K × A)} {k : K} (a : A)
    (hn : keysNodup m) : keysNodup (mapSet m k a) := by
  induction m with
  | nil => simp [keysNodup, mapSet]
  | cons p t ih =>
    obtain ⟨k1, a1⟩ := p
    simp only [keysNodup, List.map_cons, List.nodup_cons] at hn
    by_cases h1 : k1 = k
    · subst h1
      simpa [keysNodup, mapSet] using hn
    · rw [show mapSet ((k1, a1) :: t) k a = (k1, a1) :: mapSet t k a by
        simp [mapSet, h1]]
      simp only [keysNodup, List.map_cons, List.nodup_cons]
      refine ⟨?_, ih hn.2⟩
      intro hmem
      rcases mem_keys_mapSet.mp hmem with heq | hmem2
      · exact h1 heq
      · exact hn.1 hmem2

theorem keysNodup_mapDel {m : List (K × A)} (k : K) (hn : keysNodup m) :
    keysNodup (mapDel m k) :=
  List.Nodup.sublist (List.Sublist.map _ (mapDel_sublist m k)) hn

theorem length_mapDel_some {m : List (K × A)} {k : K} {a : A}
    (hn : keysNodup m) (h : mapGet m k = some a) :
    m.length = (mapDel m k).length + 1 := by
  induction m with
  | nil => simp [mapGet] at h
  | cons p t ih =>
    obtain ⟨k1, a1⟩ := p
    simp only [keysNodup, List.map_cons, List.nodup_cons] at hn
    by_cases h1 : k1 = k
    · subst h1
      rw [show mapDel ((k1, a1) :: t) k1 = mapDel t k1 by simp [mapDel]]
      rw [mapDel_of_none (mapGet_eq_none_iff.mpr hn.1)]
      simp
    · simp only [mapGet, if_neg h1] at h
      rw [show mapDel ((k1, a1) :: t) k = (k1, a1) :: mapDel t k by
        simp [mapDel, h1]]
      simp [ih hn.2 h]

theorem mem_of_mapGet_some {m : List (K × A)} {k : K} {a : A}
    (h : mapGet m k = some a) : (k, a) ∈ m := by
  induction m with
  | nil => simp [mapGet] at h
  | cons p t ih =>
    obtain ⟨k1, a1⟩ := p
    by_cases h1 : k1 = k
    · subst h1
      simp only [mapGet, if_pos rfl] at h
      cases h
      simp
    · simp only [mapGet, if_neg h1] at h
      simp [ih h]

theorem mapGet_some_of_mem {m : List (K × A)} {k : K} {a : A}
    (hn : keysNodup m) (h : (k, a) ∈ m) : mapGet m k = some a := by
  induction m with
  | nil => simp at h
  | cons p t ih =>
    obtain ⟨k1, a1⟩ := p
    simp only [keysNodup, List.map_cons, List.nodup_cons] at hn
    rcases List.mem_cons.mp h with heq | hmem
    · cases heq
      simp [mapGet]
    · by_cases h1 : k1 = k
      · subst h1
        exact absurd (List.mem_map_of_mem Prod.fst hmem) hn.1
      · simp [mapGet, h1, ih hn.2 hmem]

theorem perm_mapDel {m : List (K × A)} {k : K} {a : A}
    (hn : keysNodup m) (h : mapGet m k = some a) :
    m.Perm ((k, a) :: mapDel m k) := by
  induction m with
  | nil => simp [mapGet] at h
  | cons p t ih =>
    obtain ⟨k1, a1⟩ := p
    simp only [keysNodup, List.map_cons, List.nodup_cons] at hn
    by_cases h1 : k1 = k
    · subst h1
      have ha : a1 = a := by simpa [mapGet] using h
      subst ha
      rw [show mapDel ((k1, a1) :: t) k1 = mapDel t k1 by simp [mapDel]]
      rw [mapDel_of_none (mapGet_eq_none_iff.mpr hn.1)]
    · simp only [mapGet, if_neg h1] at h
      have step : ((k1, a1) :: t).Perm ((k1, a1) :: (k, a) :: mapDel t k) :=
        (ih hn.2 h).cons _
      refine step.trans ?_
      have : mapDel ((k1, a1) :: t) k = (k1, a1) :: mapDel t k := by
        simp [mapDel, h1]
      rw [this]
      exact List.Perm.swap _ _ _

/-! ### Abstract heap theory over value arrays

The heap-shaped reasoning is carried out over abstract value arrays
`a : Nat → V` (slot `i` holds value `a i`), mirroring `swap`/`swim`/`sink`;
the concrete operations are related to these by the `val_*` simulation
lemmas below. -/

/-- The spec's standing assumption on the caller's comparison function
(`cmp x y` = "x has priority over y"): a strict weak ordering, i.e.
irreflexive, transitive, and negatively transitive. -/
def IsSWO (cmp : V → V → Bool) : Prop :=
  (∀ x, cmp x x = false) ∧
  (∀ x y z, cmp x y = true → cmp y z = true → cmp x z = true) ∧
  (∀ x y z, cmp x y = false → cmp y z = false → cmp x z = false)

theorem bool_eq_false {b : Bool} (h : ¬ b = true) : b = false := by
  cases b
  · rfl
  · exact absurd rfl h

theorem bool_cases (b : Bool) : b = false ∨ b = true := by
  cases b
  · exact Or.inl rfl
  · exact Or.inr rfl

theorem IsSWO.asymm {cmp : V → V → Bool} (h : IsSWO cmp) {x y : V}
    (hxy : cmp x y = true) : cmp y x = false := by
  rcases bool_cases (cmp y x) with hyx | hyx
  · exact hyx
  · exact Bool.noConfusion ((h.1 x).symm.trans (h.2.1 x y x hxy hyx))

theorem parent_lt {i : Nat} (h : 0 < i) : parent i < i := by
  simp only [parent]
  omega

theorem lt_leftChild (i : Nat) : i < leftChild i := by
  simp only [leftChild]
  omega

theorem parent_leftChild (i : Nat) : parent (leftChild i) = i := by
  simp only [parent, leftChild]
  omega

theorem parent_leftChild_succ (i : Nat) : parent (leftChild i + 1) = i := by
  simp only [parent, leftChild]
  omega

theorem child_cases {m i : Nat} (h0 : 0 < m) (h : parent m = i) :
    m = leftChild i ∨ m = leftChild i + 1 := by
  simp only [parent] at h
  simp only [leftChild]
  omega

theorem lt_of_parent_eq {m i : Nat} (h0 : 0 < m) (h : parent m = i) : i < m := by
  simp only [parent] at h
  omega

/-- Abstract counterpart of `swap` on value arrays: transpose slots `i`
and `j`. -/
def aswap (a : Nat → V) (i j : Nat) : Nat → V :=
  fun m => if m = i then a j else if m = j then a i else a m

/-- Abstract counterpart of `swim` on value arrays. -/
def aswim (cmp : V → V → Bool) (a : Nat → V) (i : Nat) : Nat → V :=
  if 0 < i ∧ cmp (a i) (a (parent i)) = true then
    aswim cmp (aswap a i (parent i)) (parent i)
  else a
termination_by i
decreasing_by
  rename_i h
  exact parent_lt h.1

/-- Abstract counterpart of `sink` on value arrays. -/
def asink (cmp : V → V → Bool) (a : Nat → V) (i n : Nat) : Nat → V :=
  if leftChild i < n then
    if leftChild i + 1 < n ∧ cmp (a (leftChild i + 1)) (a (leftChild i)) = true then
      if cmp (a (leftChild i + 1)) (a i) = true then
        asink cmp (aswap a i (leftChild i + 1)) (leftChild i + 1) n
      else a
    else
      if cmp (a (leftChild i)) (a i) = true then
        asink cmp (aswap a i (leftChild i)) (leftChild i) n
      else a
  else a
termination_by n - i
decreasing_by
  · have := lt_leftChild i
    omega
  · have := lt_leftChild i
    omega

/-- The binary heap property on the first `n` slots of `a`: no slot is
strictly better than its parent. -/
def Heap (cmp : V → V → Bool) (a : Nat → V) (n : Nat) : Prop :=
  ∀ m, m < n → 0 < m → cmp (a m) (a (parent m)) = false

/-- All heap links hold except possibly those incident to slot `i` (its
up-link and its down-links), and additionally `i`'s children are not
better than `i`'s parent.  This is the state right after slot `i`'s value
has been replaced (or slot `i` refilled by the last element) in a heap. -/
def PExc (cmp : V → V → Bool) (a : Nat → V) (n i : Nat) : Prop :=
  (∀ m, m < n → 0 < m → m ≠ i → parent m ≠ i →
    cmp (a m) (a (parent m)) = false) ∧
  (∀ m, m < n → parent m = i → 0 < i → cmp (a m) (a (parent i)) = false)

/-- `PExc` plus: slot `i`'s down-links hold.  Only `i`'s up-link may be
broken; this is `swim`'s loop invariant. -/
def QExc (cmp : V → V → Bool) (a : Nat → V) (n i : Nat) : Prop :=
  PExc cmp a n i ∧
  ∀ m, m < n → 0 < m → parent m = i → cmp (a m) (a i) = false

/-- All heap links hold except possibly slot `i`'s down-links, and `i`'s
children are not better than `i`'s parent; this is `sink`'s loop
invariant. -/
def SExc (cmp : V → V → Bool) (a : Nat → V) (n i : Nat) : Prop :=
  (∀ m, m < n → 0 < m → parent m ≠ i → cmp (a m) (a (parent m)) = false) ∧
  (∀ m, m < n → parent m = i → 0 < i → cmp (a m) (a (parent i)) = false)

theorem aswap_fst (a : Nat → V) (i j : Nat) : aswap a i j i = a j := by
  simp [aswap]

theorem aswap_snd (a : Nat → V) (i j : Nat) : aswap a i j j = a i := by
  by_cases h : j = i <;> simp [aswap, h]

theorem aswap_other (a : Nat → V) {i j m : Nat} (h1 : m ≠ i) (h2 : m ≠ j) :
    aswap a i j m = a m := by
  simp [aswap, h1, h2]

/-- One `swim` step: from `PExc` at `i` with the up-link guard firing,
swapping `i` with its parent re-establishes the stronger `QExc` at the
parent slot. -/
theorem swim_step {cmp : V → V → Bool} (hswo : IsSWO cmp) {a : Nat → V}
    {n i : Nat} (hp : PExc cmp a n i) (hin : i < n) (hi : 0 < i)
    (hc : cmp (a i) (a (parent i)) = true) :
    QExc cmp (aswap a i (parent i)) n (parent i) := by
  have hpi : parent i < i := parent_lt hi
  refine ⟨⟨?_, ?_⟩, ?_⟩
  · -- links not incident to the parent slot
    intro m hmn hm hmp hpmp
    by_cases hmi : m = i
    · exact absurd (hmi ▸ rfl) hpmp
    · by_cases hpmi : parent m = i
      · rw [aswap_other a hmi hmp, hpmi, aswap_fst]
        exact hp.2 m hmn hpmi hi
      · rw [aswap_other a hmi hmp, aswap_other a hpmi]
        · exact hp.1 m hmn hm hmi hpmi
        · intro hx
          exact hpmp hx
  · -- grandchild condition at the parent slot
    intro m hmn hpm hpp
    have hppi : parent (parent i) < parent i := parent_lt hpp
    have hgp1 : parent (parent i) ≠ i := Nat.ne_of_lt (lt_trans hppi hpi)
    have hgp2 : parent (parent i) ≠ parent i := Nat.ne_of_lt hppi
    by_cases hmi : m = i
    · subst hmi
      rw [aswap_fst, aswap_other a hgp1 hgp2]
      exact hp.1 (parent m) (lt_trans hpi hmn) hpp (Nat.ne_of_lt hpi) hgp1
    · have hm0 : 0 < m := by
        rcases Nat.eq_zero_or_pos m with rfl | h
        · rw [show parent 0 = 0 by simp [parent]] at hpm
          omega
        · exact h
      have hmlt : parent i < m := lt_of_parent_eq hm0 hpm
      have hmp : m ≠ parent i := by omega
      rw [aswap_other a hmi hmp, aswap_other a hgp1 hgp2]
      have h1 : cmp (a m) (a (parent i)) = false := by
        have := hp.1 m hmn hm0 hmi (by rw [hpm]; exact Nat.ne_of_lt hpi)
        rwa [hpm] at this
      have h2 : cmp (a (parent i)) (a (parent (parent i))) = false :=
        hp.1 (parent i) (lt_trans hpi hin) hpp (Nat.ne_of_lt hpi) hgp1
      exact hswo.2.2 _ _ _ h1 h2
  · -- down-links of the parent slot
    intro m hmn hm hpm
    rw [aswap_snd]
    by_cases hmi : m = i
    · subst hmi
      rw [aswap_fst]
      exact hswo.asymm hc
    · have hmp : m ≠ parent i := by
        have := lt_of_parent_eq hm hpm
        omega
      rw [aswap_other a hmi hmp]
      rcases bool_cases (cmp (a m) (a i)) with hx | hx
      · exact hx
      · have h1 : cmp (a m) (a (parent i)) = true := hswo.2.1 _ _ _ hx hc
        have h2 : cmp (a m) (a (parent i)) = false := by
          have := hp.1 m hmn hm hmi (by rw [hpm]; exact Nat.ne_of_lt hpi)
          rwa [hpm] at this
        exact absurd h1 (by simp [h2])

/-- `swim` from a state whose only possibly-broken link is `i`'s up-link
(plus the grandchild condition) yields a full heap. -/
theorem aswim_Q {cmp : V → V → Bool} (hswo : IsSWO cmp) :
    ∀ i (a : Nat → V) (n : Nat), i < n → QExc cmp a n i →
      Heap cmp (aswim cmp a i) n := by
  intro i
  induction i using Nat.strong_induction_on with
  | _ i ih =>
    intro a n hin hq
    rw [aswim]
    split
    · rename_i h
      exact ih (parent i) (parent_lt h.1) _ n (by have := parent_lt h.1; omega)
        (swim_step hswo hq.1 hin h.1 h.2)
    · rename_i h
      intro m hmn hm
      by_cases hmi : m = i
      · subst hmi
        rcases bool_cases (cmp (a m) (a (parent m))) with hx | hx
        · exact hx
        · exact absurd ⟨hm, hx⟩ h
      · by_cases hpm : parent m = i
        · rw [hpm]
          exact hq.2 m hmn hm hpm
        · exact hq.1.1 m hmn hm hmi hpm

/-- If every down-link of slot `i` holds on top of `SExc`, the heap
property holds outright. -/
theorem sexc_exit {cmp : V → V → Bool} {a : Nat → V} {n i : Nat}
    (hs : SExc cmp a n i)
    (hdown : ∀ m, m < n → 0 < m → parent m = i → cmp (a m) (a i) = false) :
    Heap cmp a n := by
  intro m hmn hm
  by_cases hpm : parent m = i
  · rw [hpm]
    exact hdown m hmn hm hpm
  · exact hs.1 m hmn hm hpm

/-- Down-links of `i` hold when `sink` stops with chosen child `leftChild i`
not better than `i`. -/
theorem down_of_exit_left {cmp : V → V → Bool} (hswo : IsSWO cmp)
    {a : Nat → V} {n i : Nat} (hlc : leftChild i < n)
    (h2 : ¬(leftChild i + 1 < n ∧ cmp (a (leftChild i + 1)) (a (leftChild i)) = true))
    (hguard : cmp (a (leftChild i)) (a i) = false) :
    ∀ m, m < n → 0 < m → parent m = i → cmp (a m) (a i) = false := by
  intro m hmn hm hpm
  rcases child_cases hm hpm with hml | hmr
  · rw [hml]
    exact hguard
  · have hr : cmp (a (leftChild i + 1)) (a (leftChild i)) = false := by
      rcases bool_cases (cmp (a (leftChild i + 1)) (a (leftChild i))) with hx | hx
      · exact hx
      · exact absurd ⟨hmr ▸ hmn, hx⟩ h2
    rw [hmr]
    exact hswo.2.2 _ _ _ hr hguard

/-- Down-links of `i` hold when `sink` stops with chosen child
`leftChild i + 1` not better than `i`. -/
theorem down_of_exit_right {cmp : V → V → Bool} (hswo : IsSWO cmp)
    {a : Nat → V} {n i : Nat}
    (hrl : cmp (a (leftChild i + 1)) (a (leftChild i)) = true)
    (hguard : cmp (a (leftChild i + 1)) (a i) = false) :
    ∀ m, m < n → 0 < m → parent m = i → cmp (a m) (a i) = false := by
  intro m hmn hm hpm
  rcases child_cases hm hpm with hml | hmr
  · rcases bool_cases (cmp (a (leftChild i)) (a i)) with hx | hx
    · rw [hml]
      exact hx
    · have : cmp (a (leftChild i + 1)) (a i) = true := hswo.2.1 _ _ _ hrl hx
      exact absurd this (by simp [hguard])
  · rw [hmr]
    exact hguard

/-- Down-links of `i` hold vacuously when `i` has no child below `n`. -/
theorem down_of_no_child {cmp : V → V → Bool} {a : Nat → V} {n i : Nat}
    (hlc : ¬ leftChild i < n) :
    ∀ m, m < n → 0 < m → parent m = i → cmp (a m) (a i) = false := by
  intro m hmn hm hpm
  rcases child_cases hm hpm with hml | hmr
  · omega
  · omega

/-- One `sink` step: swapping `i` with the chosen better child `j`
re-establishes `SExc` at `j`.  Only the weak `PExc`-form first component is
needed, so the lemma serves both `sink`'s own loop and the `Remove` path
where `i`'s up-link is unknown. -/
theorem sink_step {cmp : V → V → Bool} (hswo : IsSWO cmp) {a : Nat → V}
    {n i j : Nat}
    (hA1 : ∀ m, m < n → 0 < m → m ≠ i → parent m ≠ i →
      cmp (a m) (a (parent m)) = false)
    (hS2 : ∀ m, m < n → parent m = i → 0 < i → cmp (a m) (a (parent i)) = false)
    (hjn : j < n) (hpj : parent j = i) (hij : i < j)
    (hbest : ∀ s, s < n → 0 < s → parent s = i → s ≠ j → cmp (a s) (a j) = false)
    (hguard : cmp (a j) (a i) = true) :
    SExc cmp (aswap a i j) n j := by
  constructor
  · intro m hmn hm hpmj
    by_cases hmj : m = j
    · subst hmj
      rw [aswap_snd, hpj, aswap_fst]
      exact hswo.asymm hguard
    · by_cases hmi : m = i
      · subst hmi
        have hpi : parent m < m := parent_lt hm
        have hp1 : parent m ≠ m := Nat.ne_of_lt hpi
        have hp2 : parent m ≠ j := Nat.ne_of_lt (lt_trans hpi hij)
        rw [aswap_fst, aswap_other a hp1 hp2]
        exact hS2 j hjn hpj hm
      · by_cases hpmi : parent m = i
        · rw [aswap_other a hmi hmj, hpmi, aswap_fst]
          exact hbest m hmn hm hpmi hmj
        · have hpm1 : parent m ≠ i := hpmi
          rw [aswap_other a hmi hmj, aswap_other a hpm1 hpmj]
          exact hA1 m hmn hm hmi hpmi
  · intro m hmn hpmj hj0
    have hm0 : 0 < m := by
      rcases Nat.eq_zero_or_pos m with rfl | h
      · rw [show parent 0 = 0 by simp [parent]] at hpmj
        omega
      · exact h
    have hjm : j < m := lt_of_parent_eq hm0 hpmj
    have hmi : m ≠ i := Nat.ne_of_gt (lt_trans hij hjm)
    have hmj : m ≠ j := Nat.ne_of_gt hjm
    rw [hpj, aswap_other a hmi hmj, aswap_fst]
    have := hA1 m hmn hm0 hmi (by rw [hpmj]; exact Nat.ne_of_gt hij)
    rwa [hpmj] at this

/-- `sink` from `SExc` at `i` yields a full heap (auxiliary form with an
explicit bound on the measure `n - i`). -/
theorem asink_S_aux {cmp : V → V → Bool} (hswo : IsSWO cmp) :
    ∀ gas i (a : Nat → V) (n : Nat), n - i < gas → SExc cmp a n i →
      Heap cmp (asink cmp a i n) n := by
  intro gas
  induction gas with
  | zero =>
    intro i a n hg
    omega
  | succ g ih =>
    intro i a n hg hs
    rw [asink]
    split
    · rename_i hlc
      have hiln : i < leftChild i := lt_leftChild i
      split
      · rename_i h2
        split
        · rename_i hguard
          refine ih (leftChild i + 1) (aswap a i (leftChild i + 1)) n (by omega) ?_
          refine sink_step hswo (fun m hmn hm hmi hpmi => hs.1 m hmn hm hpmi)
            hs.2 h2.1 (parent_leftChild_succ i) (by omega) ?_ hguard
          intro s hsn hs0 hps hsj
          rcases child_cases hs0 hps with hsl | hsr
          · rw [hsl]
            exact hswo.asymm h2.2
          · omega
        · rename_i hguard
          exact sexc_exit hs
            (down_of_exit_right hswo h2.2 (bool_eq_false hguard))
      · rename_i h2
        split
        · rename_i hguard
          refine ih (leftChild i) (aswap a i (leftChild i)) n (by omega) ?_
          refine sink_step hswo (fun m hmn hm hmi hpmi => hs.1 m hmn hm hpmi)
            hs.2 hlc (parent_leftChild i) (by omega) ?_ hguard
          intro s hsn hs0 hps hsj
          rcases child_cases hs0 hps with hsl | hsr
          · omega
          · rw [hsr]
            rcases bool_cases (cmp (a (leftChild i + 1)) (a (leftChild i))) with hx | hx
            · exact hx
            · exact absurd ⟨hsr ▸ hsn, hx⟩ h2
        · rename_i hguard
          exact sexc_exit hs (down_of_exit_left hswo hlc h2 (bool_eq_false hguard))
    · rename_i hlc
      exact sexc_exit hs (down_of_no_child hlc)

/-- `sink` from `SExc` at `i` yields a full heap. -/
theorem asink_S {cmp : V → V → Bool} (hswo : IsSWO cmp) {a : Nat → V}
    {n i : Nat} (hs : SExc cmp a n i) : Heap cmp (asink cmp a i n) n :=
  asink_S_aux hswo (n - i + 1) i a n (by omega) hs

/-- A full heap satisfies `sink`'s precondition at any slot. -/
theorem heap_SExc {cmp : V → V → Bool} (hswo : IsSWO cmp) {a : Nat → V}
    {n : Nat} (hh : Heap cmp a n) (i : Nat) : SExc cmp a n i := by
  constructor
  · intro m hmn hm _
    exact hh m hmn hm
  · intro m hmn hpm hi
    have hm : 0 < m := by
      rcases Nat.eq_zero_or_pos m with rfl | h
      · rw [show parent 0 = 0 by simp [parent]] at hpm
        omega
      · exact h
    have him : i < m := lt_of_parent_eq hm hpm
    have h1 : cmp (a m) (a i) = false := by
      have := hh m hmn hm
      rwa [hpm] at this
    have h2 : cmp (a i) (a (parent i)) = false := hh i (by omega) hi
    exact hswo.2.2 _ _ _ h1 h2

/-- `sink` preserves a full heap. -/
theorem asink_heap {cmp : V → V → Bool} (hswo : IsSWO cmp) {a : Nat → V}
    {n : Nat} (hh : Heap cmp a n) (i : Nat) :
    Heap cmp (asink cmp a i n) n :=
  asink_S hswo (heap_SExc hswo hh i)

/-- A full heap makes `swim` stop immediately. -/
theorem aswim_of_heap {cmp : V → V → Bool} {a : Nat → V} {n i : Nat}
    (hh : Heap cmp a n) (hin : i < n) : aswim cmp a i = a := by
  rw [aswim]
  rcases Nat.eq_zero_or_pos i with rfl | hi
  · simp
  · rw [if_neg]
    intro hand
    exact Bool.noConfusion ((hh i hin hi).symm.trans hand.2)

/-- A full heap makes `sink` stop immediately. -/
theorem asink_of_heap {cmp : V → V → Bool} (hswo : IsSWO cmp) {a : Nat → V}
    {n i : Nat} (hh : Heap cmp a n) : asink cmp a i n = a := by
  rw [asink]
  split
  · rename_i hlc
    have hiln : i < leftChild i := lt_leftChild i
    split
    · rename_i h2
      rw [if_neg]
      intro hguard
      have := hh (leftChild i + 1) h2.1 (by omega)
      rw [parent_leftChild_succ i] at this
      exact Bool.noConfusion (this.symm.trans hguard)
    · rename_i h2
      rw [if_neg]
      intro hguard
      have := hh (leftChild i) hlc (by omega)
      rw [parent_leftChild i] at this
      exact Bool.noConfusion (this.symm.trans hguard)
  · rfl

/-- `Update`'s restoration: from `PExc` at `i` (all links hold except those
incident to `i`, plus the grandchild condition), a swim followed by a sink
from `i` restores the full heap property. -/
theorem update_restore {cmp : V → V → Bool} (hswo : IsSWO cmp)
    {a : Nat → V} {n i : Nat} (hin : i < n) (hp : PExc cmp a n i) :
    Heap cmp (asink cmp (aswim cmp a i) i n) n := by
  rw [aswim]
  split
  · rename_i h
    have hq := swim_step hswo hp hin h.1 h.2
    have hh : Heap cmp (aswim cmp (aswap a i (parent i)) (parent i)) n :=
      aswim_Q hswo (parent i) _ n (by have := parent_lt h.1; omega) hq
    exact asink_heap hswo hh i
  · rename_i h
    apply asink_S hswo
    constructor
    · intro m hmn hm hpm
      by_cases hmi : m = i
      · subst hmi
        rcases bool_cases (cmp (a m) (a (parent m))) with hx | hx
        · exact hx
        · exact absurd ⟨hm, hx⟩ h
      · exact hp.1 m hmn hm hmi hpm
    · exact hp.2

/-- `Remove`'s restoration: from `PExc` at `i`, a sink followed by a swim
from `i` (the order the code uses) restores the full heap property. -/
theorem remove_restore {cmp : V → V → Bool} (hswo : IsSWO cmp)
    {a : Nat → V} {n i : Nat} (hin : i < n) (hp : PExc cmp a n i) :
    Heap cmp (aswim cmp (asink cmp a i n) i) n := by
  rw [asink]
  split
  · rename_i hlc
    have hiln : i < leftChild i := lt_leftChild i
    split
    · rename_i h2
      split
      · rename_i hguard
        have hs : SExc cmp (aswap a i (leftChild i + 1)) n (leftChild i + 1) := by
          refine sink_step hswo hp.1 hp.2 h2.1 (parent_leftChild_succ i)
            (by omega) ?_ hguard
          intro s hsn hs0 hps hsj
          rcases child_cases hs0 hps with hsl | hsr
          · rw [hsl]
            exact hswo.asymm h2.2
          · omega
        have hh := asink_S hswo hs
        rw [aswim_of_heap hh hin]
        exact hh
      · rename_i hguard
        exact aswim_Q hswo i a n hin
          ⟨hp, down_of_exit_right hswo h2.2 (bool_eq_false hguard)⟩
    · rename_i h2
      split
      · rename_i hguard
        have hs : SExc cmp (aswap a i (leftChild i)) n (leftChild i) := by
          refine sink_step hswo hp.1 hp.2 hlc (parent_leftChild i)
            (by omega) ?_ hguard
          intro s hsn hs0 hps hsj
          rcases child_cases hs0 hps with hsl | hsr
          · omega
          · rw [hsr]
            rcases bool_cases (cmp (a (leftChild i + 1)) (a (leftChild i))) with hx | hx
            · exact hx
            · exact absurd ⟨hsr ▸ hsn, hx⟩ h2
        have hh := asink_S hswo hs
        rw [aswim_of_heap hh hin]
        exact hh
      · rename_i hguard
        exact aswim_Q hswo i a n hin
          ⟨hp, down_of_exit_left hswo hlc h2 (bool_eq_false hguard)⟩
  · rename_i hlc
    exact aswim_Q hswo i a n hin ⟨hp, down_of_no_child hlc⟩

/-- Root dominance: in a heap, no slot is strictly better than the root. -/
theorem heap_root {cmp : V → V → Bool} (hswo : IsSWO cmp) {a : Nat → V}
    {n : Nat} (hh : Heap cmp a n) :
    ∀ m, m < n → cmp (a m) (a 0) = false := by
  intro m
  induction m using Nat.strong_induction_on with
  | _ m ih =>
    intro hmn
    rcases Nat.eq_zero_or_pos m with rfl | hm
    · exact hswo.1 (a 0)
    · have hp := parent_lt hm
      exact hswo.2.2 _ _ _ (hh m hmn hm) (ih (parent m) hp (by omega))

/-! ### Simulation of the concrete operations by the abstract ones,
and the key/slot coherence invariant -/

/-- The coherence invariant on the three containers: `im` and `pm` are
mutually inverse, all three have equal size, `vals` and `im` hold the same
key set, and both maps have pairwise distinct keys. -/
structure KeysInv (q : KPQ K V) : Prop where
  im_pm : ∀ i, i < q.pm.length → mapGet q.im (q.pm.getD i default) = some i
  pm_im : ∀ k j, mapGet q.im k = some j →
    j < q.pm.length ∧ q.pm.getD j default = k
  im_len : q.im.length = q.pm.length
  vals_len : q.vals.length = q.pm.length
  dom : ∀ k, (mapGet q.vals k).isSome = (mapGet q.im k).isSome
  im_nodup : keysNodup q.im
  vals_nodup : keysNodup q.vals

theorem KeysInv.pm_ne {q : KPQ K V} (h : KeysInv q) {i j : Nat}
    (hi : i < q.pm.length) (hj : j < q.pm.length) (hij : i ≠ j) :
    q.pm.getD i default ≠ q.pm.getD j default := by
  intro hx
  have h1 := h.im_pm i hi
  have h2 := h.im_pm j hj
  rw [hx, h2] at h1
  exact hij ((Option.some.injEq _ _ ▸ h1).symm)

theorem swap_vals (q : KPQ K V) (i j : Nat) : (swap q i j).vals = q.vals := rfl

theorem swap_pm_length (q : KPQ K V) (i j : Nat) :
    (swap q i j).pm.length = q.pm.length := by
  simp [swap]

theorem swap_pm_getD (q : KPQ K V) {i j : Nat} (hi : i < q.pm.length)
    (hj : j < q.pm.length) (m : Nat) :
    (swap q i j).pm.getD m default =
      if m = j then q.pm.getD i default
      else if m = i then q.pm.getD j default
      else q.pm.getD m default := by
  show ((q.pm.set i (q.pm.getD j default)).set j (q.pm.getD i default)).getD m default = _
  by_cases hmj : m = j
  · subst hmj
    rw [if_pos rfl]
    exact getD_set_lt _ _ (by rw [List.length_set]; exact hj)
  · rw [if_neg hmj, getD_set_ne _ _ (Ne.symm hmj)]
    by_cases hmi : m = i
    · subst hmi
      rw [if_pos rfl]
      exact getD_set_lt _ _ hi
    · rw [if_neg hmi, getD_set_ne _ _ (Ne.symm hmi)]

theorem val_swap (q : KPQ K V) {i j : Nat} (hi : i < q.pm.length)
    (hj : j < q.pm.length) : val (swap q i j) = aswap (val q) i j := by
  funext m
  show (mapGet (swap q i j).vals ((swap q i j).pm.getD m default)).getD default = _
  rw [swap_vals, swap_pm_getD q hi hj m]
  by_cases hmi : m = i
  · subst hmi
    by_cases hmj : m = j
    · subst hmj
      simp [aswap, val, valOfKey, pmGet]
    · rw [if_neg hmj, if_pos rfl]
      simp [aswap, val, valOfKey, pmGet]
  · by_cases hmj : m = j
    · subst hmj
      rw [if_pos rfl]
      simp [aswap, hmi, val, valOfKey, pmGet]
    · rw [if_neg hmj, if_neg hmi]
      simp [aswap, hmi, hmj, val, valOfKey, pmGet]

theorem swap_im_get {q : KPQ K V} (h : KeysInv q) {i j : Nat}
    (hi : i < q.pm.length) (hj : j < q.pm.length) (k : K) :
    mapGet (swap q i j).im k =
      if k = q.pm.getD i default then some j
      else if k = q.pm.getD j default then some i
      else mapGet q.im k := by
  have hpm1i : (swap q i j).pm.getD i default =
      if i = j then q.pm.getD i default else q.pm.getD j default := by
    rw [swap_pm_getD q hi hj i]
    by_cases hij : i = j
    · simp [hij]
    · simp [hij]
  have hpm1j : (swap q i j).pm.getD j default = q.pm.getD i default := by
    rw [swap_pm_getD q hi hj j]
    simp
  show mapGet (mapSet (mapSet q.im ((swap q i j).pm.getD i default) i)
      ((swap q i j).pm.getD j default) j) k = _
  rw [hpm1i, hpm1j]
  by_cases hij : i = j
  · subst hij
    rw [if_pos rfl]
    by_cases hk : k = q.pm.getD i default
    · subst hk
      rw [if_pos rfl, mapGet_mapSet_self]
    · rw [if_neg hk, if_neg hk, mapGet_mapSet_ne _ _ hk, mapGet_mapSet_ne _ _ hk]
  · rw [if_neg hij]
    have hAB : q.pm.getD i default ≠ q.pm.getD j default := h.pm_ne hi hj hij
    by_cases hk : k = q.pm.getD i default
    · subst hk
      rw [if_pos rfl, mapGet_mapSet_self]
    · rw [if_neg hk]
      by_cases hk2 : k = q.pm.getD j default
      · subst hk2
        rw [if_pos rfl, mapGet_mapSet_ne _ _ (Ne.symm hAB), mapGet_mapSet_self]
      · rw [if_neg hk2, mapGet_mapSet_ne _ _ hk, mapGet_mapSet_ne _ _ hk2]

theorem swap_keysInv {q : KPQ K V} (h : KeysInv q) {i j : Nat}
    (hi : i < q.pm.length) (hj : j < q.pm.length) : KeysInv (swap q i j) := by
  have hlen := swap_pm_length q i j
  refine ⟨?_, ?_, ?_, ?_, ?_, ?_, ?_⟩
  · intro m hm
    rw [hlen] at hm
    rw [swap_im_get h hi hj, swap_pm_getD q hi hj m]
    by_cases hmj : m = j
    · subst hmj
      rw [if_pos rfl, if_pos rfl]
    · rw [if_neg hmj]
      by_cases hmi : m = i
      · subst hmi
        rw [if_pos rfl, if_neg (Ne.symm (h.pm_ne hi hj hmj)), if_pos rfl]
      · rw [if_neg hmi,
          if_neg (h.pm_ne hm hi hmi),
          if_neg (h.pm_ne hm hj hmj)]
        exact h.im_pm m hm
  · intro k m hk
    rw [swap_im_get h hi hj] at hk
    rw [hlen]
    by_cases h1 : k = q.pm.getD i default
    · rw [if_pos h1] at hk
      cases hk
      refine ⟨hj, ?_⟩
      rw [swap_pm_getD q hi hj j, if_pos rfl]
      exact h1.symm
    · rw [if_neg h1] at hk
      by_cases h2 : k = q.pm.getD j default
      · rw [if_pos h2] at hk
        cases hk
        have hij : i ≠ j := fun hx => h1 (hx ▸ h2)
        refine ⟨hi, ?_⟩
        rw [swap_pm_getD q hi hj i, if_neg hij, if_pos rfl]
        exact h2.symm
      · rw [if_neg h2] at hk
        obtain ⟨hm, hpm⟩ := h.pm_im k m hk
        have hmi : m ≠ i := fun hx => h1 (hx ▸ hpm).symm
        have hmj : m ≠ j := fun hx => h2 (hx ▸ hpm).symm
        refine ⟨hm, ?_⟩
        rw [swap_pm_getD q hi hj m, if_neg hmj, if_neg hmi]
        exact hpm
  · show (swap q i j).im.length = (swap q i j).pm.length
    rw [hlen,
      show (swap q i j).im = mapSet (mapSet q.im ((swap q i j).pm.getD i default) i)
        ((swap q i j).pm.getD j default) j from rfl]
    have hBval : (swap q i j).pm.getD i default =
        if i = j then q.pm.getD i default else q.pm.getD j default := by
      rw [swap_pm_getD q hi hj i]
      by_cases hij : i = j <;> simp [hij]
    have hAval : (swap q i j).pm.getD j default = q.pm.getD i default := by
      rw [swap_pm_getD q hi hj j]
      simp
    have hB : (mapGet q.im ((swap q i j).pm.getD i default)).isSome := by
      rw [hBval]
      by_cases hij : i = j
      · rw [if_pos hij, h.im_pm i hi]
        rfl
      · rw [if_neg hij, h.im_pm j hj]
        rfl
    have hA : (mapGet (mapSet q.im ((swap q i j).pm.getD i default) i)
        ((swap q i j).pm.getD j default)).isSome := by
      by_cases hk : (swap q i j).pm.getD j default = (swap q i j).pm.getD i default
      · rw [hk, mapGet_mapSet_self]
        rfl
      · rw [mapGet_mapSet_ne _ _ hk, hAval, h.im_pm i hi]
        rfl
    rw [length_mapSet_isSome _ hA, length_mapSet_isSome _ hB, h.im_len]
  · show q.vals.length = _
    rw [hlen, h.vals_len]
  · intro k
    show (mapGet q.vals k).isSome = _
    rw [swap_im_get h hi hj]
    by_cases h1 : k = q.pm.getD i default
    · rw [if_pos h1, h.dom k, h1, h.im_pm i hi]
      rfl
    · rw [if_neg h1]
      by_cases h2 : k = q.pm.getD j default
      · rw [if_pos h2, h.dom k, h2, h.im_pm j hj]
        rfl
      · rw [if_neg h2]
        exact h.dom k
  · exact keysNodup_mapSet _ (keysNodup_mapSet _ h.im_nodup)
  · exact h.vals_nodup

theorem swim_vals (cmp : V → V → Bool) :
    ∀ i (q : KPQ K V), (swim cmp q i).vals = q.vals := by
  intro i
  induction i using Nat.strong_induction_on with
  | _ i ih =>
    intro q
    rw [swim]
    split
    · rename_i h
      rw [ih (parent i) (parent_lt h.1)]
      rfl
    · rfl

theorem swim_pm_length (cmp : V → V → Bool) :
    ∀ i (q : KPQ K V), (swim cmp q i).pm.length = q.pm.length := by
  intro i
  induction i using Nat.strong_induction_on with
  | _ i ih =>
    intro q
    rw [swim]
    split
    · rename_i h
      rw [ih (parent i) (parent_lt h.1), swap_pm_length]
    · rfl

theorem swim_pm_getD_high (cmp : V → V → Bool) :
    ∀ i (q : KPQ K V) (m : Nat), i < m →
      (swim cmp q i).pm.getD m default = q.pm.getD m default := by
  intro i
  induction i using Nat.strong_induction_on with
  | _ i ih =>
    intro q m hm
    rw [swim]
    split
    · rename_i h
      have hp : parent i < i := parent_lt h.1
      rw [ih (parent i) hp _ m (by omega)]
      show ((q.pm.set i (q.pm.getD (parent i) default)).set (parent i)
        (q.pm.getD i default)).getD m default = _
      rw [getD_set_ne _ _ (by omega), getD_set_ne _ _ (by omega)]
    · rfl

theorem swim_keysInv (cmp : V → V → Bool) :
    ∀ i (q : KPQ K V), i < q.pm.length → KeysInv q →
      KeysInv (swim cmp q i) := by
  intro i
  induction i using Nat.strong_induction_on with
  | _ i ih =>
    intro q hi h
    rw [swim]
    split
    · rename_i hcond
      have hp : parent i < i := parent_lt hcond.1
      exact ih (parent i) hp _
        (by rw [swap_pm_length]; omega)
        (swap_keysInv h hi (by omega))
    · exact h

theorem val_swim (cmp : V → V → Bool) :
    ∀ i (q : KPQ K V), i < q.pm.length →
      val (swim cmp q i) = aswim cmp (val q) i := by
  intro i
  induction i using Nat.strong_induction_on with
  | _ i ih =>
    intro q hi
    rw [swim, aswim]
    split
    · rename_i h
      rw [if_pos (show 0 < i ∧ cmp (val q i) (val q (parent i)) = true from h)]
      have hp : parent i < i := parent_lt h.1
      rw [ih (parent i) hp _ (by rw [swap_pm_length]; omega)]
      rw [val_swap q hi (by omega)]
    · rename_i h
      rw [if_neg (show ¬(0 < i ∧ cmp (val q i) (val q (parent i)) = true) from h)]

theorem sink_vals (cmp : V → V → Bool) :
    ∀ gas i n (q : KPQ K V), n - i < gas → (sink cmp q i n).vals = q.vals := by
  intro gas
  induction gas with
  | zero =>
    intro i n q hg
    omega
  | succ g ih =>
    intro i n q hg
    have hil : i < leftChild i := lt_leftChild i
    rw [sink]
    split
    · rename_i hlc
      split
      · rename_i h2
        split
        · rw [ih (leftChild i + 1) n _ (by omega)]
          rfl
        · rfl
      · split
        · rw [ih (leftChild i) n _ (by omega)]
          rfl
        · rfl
    · rfl

theorem sink_pm_length (cmp : V → V → Bool) :
    ∀ gas i n (q : KPQ K V), n - i < gas →
      (sink cmp q i n).pm.length = q.pm.length := by
  intro gas
  induction gas with
  | zero =>
    intro i n q hg
    omega
  | succ g ih =>
    intro i n q hg
    have hil : i < leftChild i := lt_leftChild i
    rw [sink]
    split
    · rename_i hlc
      split
      · rename_i h2
        split
        · rw [ih (leftChild i + 1) n _ (by omega), swap_pm_length]
        · rfl
      · split
        · rw [ih (leftChild i) n _ (by omega), swap_pm_length]
        · rfl
    · rfl

theorem sink_pm_getD_high (cmp : V → V → Bool) :
    ∀ gas i n (q : KPQ K V), n - i < gas → ∀ m, n ≤ m →
      (sink cmp q i n).pm.getD m default = q.pm.getD m default := by
  intro gas
  induction gas with
  | zero =>
    intro i n q hg
    omega
  | succ g ih =>
    intro i n q hg m hm
    have hil : i < leftChild i := lt_leftChild i
    rw [sink]
    split
    · rename_i hlc
      split
      · rename_i h2
        split
        · rw [ih (leftChild i + 1) n _ (by omega) m hm]
          show ((q.pm.set i (q.pm.getD (leftChild i + 1) default)).set
            (leftChild i + 1) (q.pm.getD i default)).getD m default = _
          rw [getD_set_ne _ _ (by omega), getD_set_ne _ _ (by omega)]
        · rfl
      · split
        · rw [ih (leftChild i) n _ (by omega) m hm]
          show ((q.pm.set i (q.pm.getD (leftChild i) default)).set
            (leftChild i) (q.pm.getD i default)).getD m default = _
          rw [getD_set_ne _ _ (by omega), getD_set_ne _ _ (by omega)]
        · rfl
    · rfl

theorem sink_keysInv (cmp : V → V → Bool) :
    ∀ gas i n (q : KPQ K V), n - i < gas → n ≤ q.pm.length → KeysInv q →
      KeysInv (sink cmp q i n) := by
  intro gas
  induction gas with
  | zero =>
    intro i n q hg
    omega
  | succ g ih =>
    intro i n q hg hn h
    have hil : i < leftChild i := lt_leftChild i
    rw [sink]
    split
    · rename_i hlc
      split
      · rename_i h2
        split
        · exact ih (leftChild i + 1) n _ (by omega)
            (by rw [swap_pm_length]; exact hn)
            (swap_keysInv h (by omega) (by omega))
        · exact h
      · split
        · exact ih (leftChild i) n _ (by omega)
            (by rw [swap_pm_length]; exact hn)
            (swap_keysInv h (by omega) (by omega))
        · exact h
    · exact h

theorem val_sink (cmp : V → V → Bool) :
    ∀ gas i n (q : KPQ K V), n - i < gas → n ≤ q.pm.length →
      val (sink cmp q i n) = asink cmp (val q) i n := by
  intro gas
  induction gas with
  | zero =>
    intro i n q hg
    omega
  | succ g ih =>
    intro i n q hg hn
    have hil : i < leftChild i := lt_leftChild i
    rw [sink, asink]
    split
    · rename_i hlc
      split
      · rename_i h2
        rw [if_pos (show leftChild i + 1 < n ∧
            cmp (val q (leftChild i + 1)) (val q (leftChild i)) = true from h2)]
        split
        · rename_i hguard
          rw [if_pos (show cmp (val q (leftChild i + 1)) (val q i) = true from hguard)]
          rw [ih (leftChild i + 1) n _ (by omega) (by rw [swap_pm_length]; exact hn)]
          rw [val_swap q (by omega) (by omega)]
        · rename_i hguard
          rw [if_neg (show ¬ cmp (val q (leftChild i + 1)) (val q i) = true from hguard)]
      · rename_i h2
        rw [if_neg (show ¬(leftChild i + 1 < n ∧
            cmp (val q (leftChild i + 1)) (val q (leftChild i)) = true) from h2)]
        split
        · rename_i hguard
          rw [if_pos (show cmp (val q (leftChild i)) (val q i) = true from hguard)]
          rw [ih (leftChild i) n _ (by omega) (by rw [swap_pm_length]; exact hn)]
          rw [val_swap q (by omega) (by omega)]
        · rename_i hguard
          rw [if_neg (show ¬ cmp (val q (leftChild i)) (val q i) = true from hguard)]
    · rfl

/-! ### Operation-level invariant preservation -/

/-- The heap invariant of a queue state, phrased through the abstract
array `val q`: no slot's value is strictly better than its parent's. -/
def HeapInv (cmp : V → V → Bool) (q : KPQ K V) : Prop :=
  Heap cmp (val q) q.pm.length

theorem Push_eq_present {cmp : V → V → Bool} {q : KPQ K V} {k : K} {i : Nat}
    (v : V) (hk : mapGet q.im k = some i) :
    Push cmp q k v = (q, some (KpqError.keyAlreadyExists k)) := by
  simp [Push, hk]

theorem Push_eq_absent {cmp : V → V → Bool} {q : KPQ K V} {k : K} (v : V)
    (hk : mapGet q.im k = none) :
    Push cmp q k v =
      (swim cmp
        { pm := q.pm ++ [k], im := mapSet q.im k q.pm.length,
          vals := mapSet q.vals k v }
        q.pm.length, none) := by
  simp [Push, hk]

theorem Update_eq_absent {cmp : V → V → Bool} {q : KPQ K V} {k : K} (v : V)
    (hk : mapGet q.im k = none) :
    Update cmp q k v = (q, some (KpqError.keyNotFound k)) := by
  simp [Update, hk]

theorem Update_eq_present {cmp : V → V → Bool} {q : KPQ K V} {k : K} {i : Nat}
    (v : V) (hk : mapGet q.im k = some i) :
    Update cmp q k v =
      (sink cmp (swim cmp { q with vals := mapSet q.vals k v } i) i
        (swim cmp { q with vals := mapSet q.vals k v } i).vals.length, none) := by
  simp [Update, hk]

theorem Pop_eq_empty {cmp : V → V → Bool} {q : KPQ K V}
    (h : q.pm.length = 0) :
    Pop cmp q = (q, default, default, false) := by
  rw [Pop, if_pos h]

theorem Pop_eq_cons {cmp : V → V → Bool} {q : KPQ K V}
    (h : ¬ q.pm.length = 0) :
    Pop cmp q =
      ({ pm := (sink cmp (swap q 0 (q.pm.length - 1)) 0 (q.pm.length - 1)).pm.take
            (q.pm.length - 1),
         im := mapDel (sink cmp (swap q 0 (q.pm.length - 1)) 0 (q.pm.length - 1)).im
            (q.pm.getD 0 default),
         vals := mapDel (sink cmp (swap q 0 (q.pm.length - 1)) 0 (q.pm.length - 1)).vals
            (q.pm.getD 0 default) },
        q.pm.getD 0 default, (mapGet q.vals (q.pm.getD 0 default)).getD default,
        true) := by
  rw [Pop, if_neg h]

theorem Remove_eq_absent {cmp : V → V → Bool} {q : KPQ K V} {k : K}
    (hk : mapGet q.im k = none) : Remove cmp q k = q := by
  simp [Remove, hk]

theorem Remove_eq_last {cmp : V → V → Bool} {q : KPQ K V} {k : K}
    (hk : mapGet q.im k = some (q.pm.length - 1)) :
    Remove cmp q k =
      { pm := q.pm.take (q.pm.length - 1), im := mapDel q.im k,
        vals := mapDel q.vals k } := by
  simp [Remove, hk]

theorem Remove_eq_mid {cmp : V → V → Bool} {q : KPQ K V} {k : K} {i : Nat}
    (hk : mapGet q.im k = some i) (hne : i ≠ q.pm.length - 1) :
    Remove cmp q k =
      { pm := (swim cmp (sink cmp (swap q i (q.pm.length - 1)) i (q.pm.length - 1)) i).pm.take
          (q.pm.length - 1),
        im := mapDel (swim cmp (sink cmp (swap q i (q.pm.length - 1)) i (q.pm.length - 1)) i).im k,
        vals := mapDel (swim cmp (sink cmp (swap q i (q.pm.length - 1)) i (q.pm.length - 1)) i).vals k } := by
  simp [Remove, hk, hne]

/-- Evicting the key sitting in the last slot (truncate `pm`, delete the
key from both maps) preserves the coherence invariant.  This is the common
final step of `Pop` and `Remove`. -/
theorem del_keysInv {q1 : KPQ K V} (h1 : KeysInv q1) {k : K} {n : Nat}
    (hlen : q1.pm.length = n + 1) (hk : q1.pm.getD n default = k) :
    KeysInv ⟨q1.pm.take n, mapDel q1.im k, mapDel q1.vals k⟩ := by
  have hkim : mapGet q1.im k = some n := by
    rw [← hk]
    exact h1.im_pm n (by omega)
  have htlen : (q1.pm.take n).length = n := by
    rw [List.length_take, hlen]
    omega
  have hvals : ∃ v0, mapGet q1.vals k = some v0 := by
    have := h1.dom k
    rw [hkim] at this
    cases hv : mapGet q1.vals k
    · rw [hv] at this
      exact absurd this (by simp)
    · exact ⟨_, rfl⟩
  refine ⟨?_, ?_, ?_, ?_, ?_, ?_, ?_⟩
  · intro m hm
    rw [htlen] at hm
    show mapGet (mapDel q1.im k) ((q1.pm.take n).getD m default) = some m
    rw [getD_take_lt _ hm]
    have hne : q1.pm.getD m default ≠ k := by
      rw [← hk]
      exact h1.pm_ne (by omega) (by omega) (by omega)
    rw [mapGet_mapDel_ne _ hne]
    exact h1.im_pm m (by omega)
  · intro k' m hk'
    show _ ∧ (q1.pm.take n).getD m default = k'
    have hne : k' ≠ k := by
      intro hx
      subst hx
      rw [mapGet_mapDel_self] at hk'
      exact Option.noConfusion hk'
    rw [mapGet_mapDel_ne _ hne] at hk'
    obtain ⟨hm, hpm⟩ := h1.pm_im k' m hk'
    have hmn : m ≠ n := by
      intro hx
      subst hx
      exact hne (hpm.symm.trans hk)
    rw [htlen]
    refine ⟨by omega, ?_⟩
    rw [getD_take_lt _ (by omega)]
    exact hpm
  · show (mapDel q1.im k).length = (q1.pm.take n).length
    have := length_mapDel_some h1.im_nodup hkim
    have h2 := h1.im_len
    rw [htlen]
    omega
  · show (mapDel q1.vals k).length = (q1.pm.take n).length
    obtain ⟨v0, hv0⟩ := hvals
    have := length_mapDel_some h1.vals_nodup hv0
    rw [htlen]
    have h2 := h1.vals_len
    omega
  · intro k'
    show (mapGet (mapDel q1.vals k) k').isSome = (mapGet (mapDel q1.im k) k').isSome
    by_cases hne : k' = k
    · subst hne
      rw [mapGet_mapDel_self, mapGet_mapDel_self]
      rfl
    · rw [mapGet_mapDel_ne _ hne, mapGet_mapDel_ne _ hne]
      exact h1.dom k'
  · exact keysNodup_mapDel _ h1.im_nodup
  · exact keysNodup_mapDel _ h1.vals_nodup

/-- Evicting the key in the last slot preserves the values seen in the
remaining slots. -/
theorem del_val {q1 : KPQ K V} (h1 : KeysInv q1) {k : K} {n : Nat}
    (hlen : q1.pm.length = n + 1) (hk : q1.pm.getD n default = k) :
    ∀ m, m < n →
      val (⟨q1.pm.take n, mapDel q1.im k, mapDel q1.vals k⟩ : KPQ K V) m
        = val q1 m := by
  intro m hm
  show (mapGet (mapDel q1.vals k) ((q1.pm.take n).getD m default)).getD default = _
  rw [getD_take_lt _ hm]
  have hne : q1.pm.getD m default ≠ k := by
    rw [← hk]
    exact h1.pm_ne (by omega) (by omega) (by omega)
  rw [mapGet_mapDel_ne _ hne]
  rfl

/-- Evicting the key in the last slot turns a heap on the first `n` slots
into the heap invariant of the shrunk state. -/
theorem del_heap {cmp : V → V → Bool} {q1 : KPQ K V} (h1 : KeysInv q1)
    {k : K} {n : Nat} (hlen : q1.pm.length = n + 1)
    (hk : q1.pm.getD n default = k) (hh : Heap cmp (val q1) n) :
    HeapInv cmp (⟨q1.pm.take n, mapDel q1.im k, mapDel q1.vals k⟩ : KPQ K V) := by
  have htlen : (q1.pm.take n).length = n := by
    rw [List.length_take, hlen]
    omega
  intro m hm h0
  rw [show (⟨q1.pm.take n, mapDel q1.im k, mapDel q1.vals k⟩ : KPQ K V).pm.length
    = (q1.pm.take n).length from rfl, htlen] at hm
  rw [del_val h1 hlen hk m hm,
    del_val h1 hlen hk (parent m) (by have := parent_lt h0; omega)]
  exact hh m hm h0

theorem heap_mono {cmp : V → V → Bool} {a : Nat → V} {n n' : Nat}
    (h : Heap cmp a n') (hle : n ≤ n') : Heap cmp a n :=
  fun m hm h0 => h m (by omega) h0

theorem push_keysInv (cmp : V → V → Bool) {q : KPQ K V} (h : KeysInv q)
    (k : K) (v : V) : KeysInv (Push cmp q k v).1 := by
  cases hk : mapGet q.im k with
  | some i =>
    rw [Push_eq_present v hk]
    exact h
  | none =>
    rw [Push_eq_absent v hk]
    have hvk : mapGet q.vals k = none := by
      have := h.dom k
      rw [hk] at this
      cases hv : mapGet q.vals k
      · rfl
      · rw [hv] at this
        exact absurd this (by simp)
    set n := q.pm.length with hn
    have h0 : KeysInv ({ pm := q.pm ++ [k], im := mapSet q.im k n,
                         vals := mapSet q.vals k v } : KPQ K V) := by
      refine ⟨?_, ?_, ?_, ?_, ?_, ?_, ?_⟩
      · intro m hm
        show mapGet (mapSet q.im k n) ((q.pm ++ [k]).getD m default) = some m
        rw [List.length_append] at hm
        rcases Nat.lt_or_ge m n with hmn | hmn
        · rw [getD_append_lt _ _ hmn]
          have hne : q.pm.getD m default ≠ k := by
            intro hx
            have := h.im_pm m hmn
            rw [hx, hk] at this
            exact Option.noConfusion this
          rw [mapGet_mapSet_ne _ _ hne]
          exact h.im_pm m hmn
        · have hmn' : m = n := by
            simp at hm
            omega
          rw [hmn', hn, getD_append_len k default, mapGet_mapSet_self]
      · intro k' m hk'
        show m < (q.pm ++ [k]).length ∧ (q.pm ++ [k]).getD m default = k'
        rw [List.length_append]
        by_cases hne : k' = k
        · subst hne
          rw [mapGet_mapSet_self] at hk'
          cases hk'
          exact ⟨by simp only [List.length_singleton]; omega,
            getD_append_len k' default⟩
        · rw [mapGet_mapSet_ne _ _ hne] at hk'
          obtain ⟨hm, hpm⟩ := h.pm_im k' m hk'
          exact ⟨by simp only [List.length_singleton]; omega,
            by rw [getD_append_lt _ _ hm]; exact hpm⟩
      · show (mapSet q.im k n).length = (q.pm ++ [k]).length
        rw [length_mapSet_none _ hk, List.length_append, h.im_len]
        rfl
      · show (mapSet q.vals k v).length = (q.pm ++ [k]).length
        rw [length_mapSet_none _ hvk, List.length_append, h.vals_len]
        rfl
      · intro k'
        show (mapGet (mapSet q.vals k v) k').isSome
          = (mapGet (mapSet q.im k n) k').isSome
        by_cases hne : k' = k
        · subst hne
          rw [mapGet_mapSet_self, mapGet_mapSet_self]
          rfl
        · rw [mapGet_mapSet_ne _ _ hne, mapGet_mapSet_ne _ _ hne]
          exact h.dom k'
      · exact keysNodup_mapSet _ h.im_nodup
      · exact keysNodup_mapSet _ h.vals_nodup
    exact swim_keysInv cmp n _ (by simp) h0

theorem push_heapInv (cmp : V → V → Bool) (hswo : IsSWO cmp) {q : KPQ K V}
    (h : KeysInv q) (hh : HeapInv cmp q) (k : K) (v : V) :
    HeapInv cmp (Push cmp q k v).1 := by
  cases hk : mapGet q.im k with
  | some i =>
    rw [Push_eq_present v hk]
    exact hh
  | none =>
    rw [Push_eq_absent v hk]
    set n := q.pm.length with hn
    set q0 : KPQ K V := { pm := q.pm ++ [k], im := mapSet q.im k n,
                          vals := mapSet q.vals k v } with hq0
    have hlen0 : q0.pm.length = n + 1 := by
      simp [hq0]
    have hval0 : ∀ m, m < n → val q0 m = val q m := by
      intro m hm
      show (mapGet q0.vals (q0.pm.getD m default)).getD default = _
      rw [show q0.pm = q.pm ++ [k] from rfl, getD_append_lt _ _ hm]
      have hne : q.pm.getD m default ≠ k := by
        intro hx
        have := h.im_pm m hm
        rw [hx, hk] at this
        exact Option.noConfusion this
      rw [show q0.vals = mapSet q.vals k v from rfl, mapGet_mapSet_ne _ _ hne]
      rfl
    show Heap cmp (val (swim cmp q0 n)) (swim cmp q0 n).pm.length
    rw [swim_pm_length, hlen0, val_swim cmp n q0 (by omega)]
    apply aswim_Q hswo n (val q0) (n + 1) (by omega)
    refine ⟨⟨?_, ?_⟩, ?_⟩
    · intro m hm h0 hmn hpmn
      have hmn' : m < n := by omega
      have hpm : parent m < m := parent_lt h0
      rw [hval0 m hmn', hval0 (parent m) (by omega)]
      exact hh m hmn' h0
    · intro m hm hpm h0
      have hm0 : 0 < m := by
        rcases Nat.eq_zero_or_pos m with rfl | hx
        · rw [show parent 0 = 0 by simp [parent]] at hpm
          omega
        · exact hx
      have := lt_of_parent_eq hm0 hpm
      omega
    · intro m hm h0 hpm
      have := lt_of_parent_eq h0 hpm
      omega

theorem pop_keysInv (cmp : V → V → Bool) {q : KPQ K V} (h : KeysInv q) :
    KeysInv (Pop cmp q).1 := by
  by_cases h0 : q.pm.length = 0
  · rw [Pop_eq_empty h0]
    exact h
  · rw [Pop_eq_cons h0]
    set n := q.pm.length - 1 with hn
    set k := q.pm.getD 0 default with hkdef
    have hlen : q.pm.length = n + 1 := by omega
    have hswap : KeysInv (swap q 0 n) := swap_keysInv h (by omega) (by omega)
    have h1 : KeysInv (sink cmp (swap q 0 n) 0 n) :=
      sink_keysInv cmp (n + 1) 0 n _ (by omega)
        (by rw [swap_pm_length]; omega) hswap
    have hlen1 : (sink cmp (swap q 0 n) 0 n).pm.length = n + 1 := by
      rw [sink_pm_length cmp (n + 1) 0 n _ (by omega), swap_pm_length]
      omega
    have hk1 : (sink cmp (swap q 0 n) 0 n).pm.getD n default = k := by
      rw [sink_pm_getD_high cmp (n + 1) 0 n _ (by omega) n (le_refl n),
        swap_pm_getD q (by omega) (by omega) n, if_pos rfl]
    exact del_keysInv h1 hlen1 hk1

theorem pop_heapInv (cmp : V → V → Bool) (hswo : IsSWO cmp) {q : KPQ K V}
    (h : KeysInv q) (hh : HeapInv cmp q) : HeapInv cmp (Pop cmp q).1 := by
  by_cases h0 : q.pm.length = 0
  · rw [Pop_eq_empty h0]
    exact hh
  · rw [Pop_eq_cons h0]
    set n := q.pm.length - 1 with hn
    set k := q.pm.getD 0 default with hkdef
    have hlen : q.pm.length = n + 1 := by omega
    have hswap : KeysInv (swap q 0 n) := swap_keysInv h (by omega) (by omega)
    have h1 : KeysInv (sink cmp (swap q 0 n) 0 n) :=
      sink_keysInv cmp (n + 1) 0 n _ (by omega)
        (by rw [swap_pm_length]; omega) hswap
    have hlen1 : (sink cmp (swap q 0 n) 0 n).pm.length = n + 1 := by
      rw [sink_pm_length cmp (n + 1) 0 n _ (by omega), swap_pm_length]
      omega
    have hk1 : (sink cmp (swap q 0 n) 0 n).pm.getD n default = k := by
      rw [sink_pm_getD_high cmp (n + 1) 0 n _ (by omega) n (le_refl n),
        swap_pm_getD q (by omega) (by omega) n, if_pos rfl]
    apply del_heap h1 hlen1 hk1
    have hv : val (sink cmp (swap q 0 n) 0 n) = asink cmp (aswap (val q) 0 n) 0 n := by
      rw [val_sink cmp (n + 1) 0 n _ (by omega) (by rw [swap_pm_length]; omega),
        val_swap q (by omega) (by omega)]
    rw [hv]
    apply asink_S hswo
    constructor
    · intro m hm hm0 hpm
      have hp : parent m < m := parent_lt hm0
      rw [aswap_other (val q) (Nat.ne_of_gt hm0) (Nat.ne_of_lt hm),
        aswap_other (val q) hpm (Nat.ne_of_lt (by omega))]
      exact hh m (by omega) hm0
    · intro m hm hpm h0'
      omega

theorem update_keysInv (cmp : V → V → Bool) {q : KPQ K V} (h : KeysInv q)
    (k : K) (v : V) : KeysInv (Update cmp q k v).1 := by
  cases hk : mapGet q.im k with
  | none =>
    rw [Update_eq_absent v hk]
    exact h
  | some i =>
    rw [Update_eq_present v hk]
    obtain ⟨hi, hpmi⟩ := h.pm_im k i hk
    have hvk : (mapGet q.vals k).isSome := by
      rw [h.dom k, hk]
      rfl
    have h0 : KeysInv ({ q with vals := mapSet q.vals k v } : KPQ K V) := by
      refine ⟨h.im_pm, h.pm_im, h.im_len, ?_, ?_, h.im_nodup,
        keysNodup_mapSet _ h.vals_nodup⟩
      · show (mapSet q.vals k v).length = q.pm.length
        rw [length_mapSet_isSome _ hvk, h.vals_len]
      · intro k'
        show (mapGet (mapSet q.vals k v) k').isSome = (mapGet q.im k').isSome
        by_cases hne : k' = k
        · subst hne
          rw [mapGet_mapSet_self, hk]
          rfl
        · rw [mapGet_mapSet_ne _ _ hne]
          exact h.dom k'
    have h1 : KeysInv (swim cmp ({ q with vals := mapSet q.vals k v } : KPQ K V) i) :=
      swim_keysInv cmp i _ (show i < q.pm.length from hi) h0
    have hq1len : (swim cmp ({ q with vals := mapSet q.vals k v } : KPQ K V) i).pm.length
        = q.pm.length := swim_pm_length cmp i _
    have hq1vals : (swim cmp ({ q with vals := mapSet q.vals k v } : KPQ K V) i).vals.length
        = q.pm.length := by
      rw [swim_vals]
      show (mapSet q.vals k v).length = q.pm.length
      rw [length_mapSet_isSome _ hvk, h.vals_len]
    exact sink_keysInv cmp (q.pm.length + 1) i _ _ (by omega)
      (by rw [hq1vals, hq1len]) h1

theorem update_heapInv (cmp : V → V → Bool) (hswo : IsSWO cmp) {q : KPQ K V}
    (h : KeysInv q) (hh : HeapInv cmp q) (k : K) (v : V) :
    HeapInv cmp (Update cmp q k v).1 := by
  cases hk : mapGet q.im k with
  | none =>
    rw [Update_eq_absent v hk]
    exact hh
  | some i =>
    rw [Update_eq_present v hk]
    obtain ⟨hi, hpmi⟩ := h.pm_im k i hk
    have hvk : (mapGet q.vals k).isSome := by
      rw [h.dom k, hk]
      rfl
    set L := q.pm.length with hL
    set q0 : KPQ K V := { q with vals := mapSet q.vals k v } with hq0
    have hlen0 : q0.pm.length = L := rfl
    have hq1len : (swim cmp q0 i).pm.length = L := by
      rw [swim_pm_length]
    have hq1vals : (swim cmp q0 i).vals.length = L := by
      rw [swim_vals]
      show (mapSet q.vals k v).length = L
      rw [length_mapSet_isSome _ hvk, h.vals_len]
    have hval0ne : ∀ m, m < L → m ≠ i → val q0 m = val q m := by
      intro m hm hmne
      show (mapGet (mapSet q.vals k v) (q.pm.getD m default)).getD default = _
      have hne : q.pm.getD m default ≠ k := by
        intro hx
        have him := h.im_pm m hm
        rw [hx, hk] at him
        exact hmne (Option.some.injEq _ _ ▸ him).symm
      rw [mapGet_mapSet_ne _ _ hne]
      rfl
    have hp : PExc cmp (val q0) L i := by
      constructor
      · intro m hm hm0 hmi hpmi2
        have hpmlt : parent m < m := parent_lt hm0
        rw [hval0ne m hm hmi, hval0ne (parent m) (by omega) hpmi2]
        exact hh m hm hm0
      · intro m hm hpm hi0
        have hm0 : 0 < m := by
          rcases Nat.eq_zero_or_pos m with rfl | hx
          · rw [show parent 0 = 0 by simp [parent]] at hpm
            omega
          · exact hx
        have him : i < m := lt_of_parent_eq hm0 hpm
        have hpi : parent i < i := parent_lt hi0
        rw [hval0ne m hm (Nat.ne_of_gt him), hval0ne (parent i) (by omega) (Nat.ne_of_lt hpi)]
        have h1 := hh m hm hm0
        rw [hpm] at h1
        have h2 := hh i (by omega) hi0
        exact hswo.2.2 _ _ _ h1 h2
    show Heap cmp (val (sink cmp (swim cmp q0 i) i (swim cmp q0 i).vals.length))
      (sink cmp (swim cmp q0 i) i (swim cmp q0 i).vals.length).pm.length
    rw [hq1vals,
      sink_pm_length cmp (L + 1) i L _ (by omega), hq1len,
      val_sink cmp (L + 1) i L _ (by omega) (by omega),
      val_swim cmp i q0 (by omega)]
    exact update_restore hswo (by omega) hp

theorem remove_keysInv (cmp : V → V → Bool) {q : KPQ K V} (h : KeysInv q)
    (k : K) : KeysInv (Remove cmp q k) := by
  cases hk : mapGet q.im k with
  | none =>
    rw [Remove_eq_absent hk]
    exact h
  | some i =>
    obtain ⟨hi, hpmi⟩ := h.pm_im k i hk
    set n := q.pm.length - 1 with hn
    have hlen : q.pm.length = n + 1 := by omega
    by_cases hin : i = n
    · rw [Remove_eq_last (by rw [hk, hin])]
      exact del_keysInv h hlen (by rw [show q.pm.length - 1 = i by omega]; exact hpmi)
    · rw [Remove_eq_mid hk hin]
      have hswap : KeysInv (swap q i n) := swap_keysInv h (by omega) (by omega)
      have hsk : KeysInv (sink cmp (swap q i n) i n) :=
        sink_keysInv cmp (n + 1) i n _ (by omega)
          (by rw [swap_pm_length]; omega) hswap
      have hsklen : (sink cmp (swap q i n) i n).pm.length = n + 1 := by
        rw [sink_pm_length cmp (n + 1) i n _ (by omega), swap_pm_length]
        omega
      have h1 : KeysInv (swim cmp (sink cmp (swap q i n) i n) i) :=
        swim_keysInv cmp i _ (by omega) hsk
      have hlen1 : (swim cmp (sink cmp (swap q i n) i n) i).pm.length = n + 1 := by
        rw [swim_pm_length, hsklen]
      have hk1 : (swim cmp (sink cmp (swap q i n) i n) i).pm.getD n default = k := by
        rw [swim_pm_getD_high cmp i _ n (by omega),
          sink_pm_getD_high cmp (n + 1) i n _ (by omega) n (le_refl n),
          swap_pm_getD q (by omega) (by omega) n, if_pos rfl]
        exact hpmi
      exact del_keysInv h1 hlen1 hk1

theorem remove_heapInv (cmp : V → V → Bool) (hswo : IsSWO cmp) {q : KPQ K V}
    (h : KeysInv q) (hh : HeapInv cmp q) (k : K) :
    HeapInv cmp (Remove cmp q k) := by
  cases hk : mapGet q.im k with
  | none =>
    rw [Remove_eq_absent hk]
    exact hh
  | some i =>
    obtain ⟨hi, hpmi⟩ := h.pm_im k i hk
    set n := q.pm.length - 1 with hn
    have hlen : q.pm.length = n + 1 := by omega
    by_cases hin : i = n
    · rw [Remove_eq_last (by rw [hk, hin])]
      exact del_heap h hlen (by rw [show q.pm.length - 1 = i by omega]; exact hpmi)
        (heap_mono hh (by omega))
    · rw [Remove_eq_mid hk hin]
      have hswap : KeysInv (swap q i n) := swap_keysInv h (by omega) (by omega)
      have hsk : KeysInv (sink cmp (swap q i n) i n) :=
        sink_keysInv cmp (n + 1) i n _ (by omega)
          (by rw [swap_pm_length]; omega) hswap
      have hsklen : (sink cmp (swap q i n) i n).pm.length = n + 1 := by
        rw [sink_pm_length cmp (n + 1) i n _ (by omega), swap_pm_length]
        omega
      have h1 : KeysInv (swim cmp (sink cmp (swap q i n) i n) i) :=
        swim_keysInv cmp i _ (by omega) hsk
      have hlen1 : (swim cmp (sink cmp (swap q i n) i n) i).pm.length = n + 1 := by
        rw [swim_pm_length, hsklen]
      have hk1 : (swim cmp (sink cmp (swap q i n) i n) i).pm.getD n default = k := by
        rw [swim_pm_getD_high cmp i _ n (by omega),
          sink_pm_getD_high cmp (n + 1) i n _ (by omega) n (le_refl n),
          swap_pm_getD q (by omega) (by omega) n, if_pos rfl]
        exact hpmi
      apply del_heap h1 hlen1 hk1
      have hv : val (swim cmp (sink cmp (swap q i n) i n) i)
          = aswim cmp (asink cmp (aswap (val q) i n) i n) i := by
        rw [val_swim cmp i _ (by omega),
          val_sink cmp (n + 1) i n _ (by omega) (by rw [swap_pm_length]; omega),
          val_swap q (by omega) (by omega)]
      rw [hv]
      apply remove_restore hswo (by omega)
      constructor
      · intro m hm hm0 hmi hpmi2
        have hpmlt : parent m < m := parent_lt hm0
        rw [aswap_other (val q) hmi (Nat.ne_of_lt hm),
          aswap_other (val q) hpmi2 (Nat.ne_of_lt (by omega))]
        exact hh m (by omega) hm0
      · intro m hm hpm hi0
        have hm0 : 0 < m := by
          rcases Nat.eq_zero_or_pos m with rfl | hx
          · rw [show parent 0 = 0 by simp [parent]] at hpm
            omega
          · exact hx
        have him : i < m := lt_of_parent_eq hm0 hpm
        have hpi : parent i < i := parent_lt hi0
        rw [aswap_other (val q) (Nat.ne_of_gt him) (Nat.ne_of_lt hm),
          aswap_other (val q) (Nat.ne_of_lt hpi) (Nat.ne_of_lt (by omega))]
        have h1 := hh m (by omega) hm0
        rw [hpm] at h1
        have h2 := hh i (by omega) hi0
        exact hswo.2.2 _ _ _ h1 h2

/-! ### Machine-integer model of sink's index arithmetic (overflow guard)

Go `int` is a 64-bit signed machine integer on the platforms the package
targets; `leftChild(i) = (i * 2) + 1` can overflow for very large `i`, and
`sink` guards this with `if j < 0 { break }`.  The model below tracks, in
exact two's-complement arithmetic, every heap-array slot the `sink` loop
reads or writes, with the data-dependent comparison outcomes abstracted by
an oracle `c` over slot indices (both possible outcomes touch only the
slots recorded). -/

/-- Two's-complement wraparound to the 64-bit signed range. -/
def wrap64 (x : Int) : Int := (x + 2 ^ 63) % 2 ^ 64 - 2 ^ 63

/-- Go `leftChild(i) = (i * 2) + 1` in 64-bit machine arithmetic: first the
doubling wraps, then the increment wraps. -/
def leftChild64 (i : Int) : Int := wrap64 (wrap64 (i * 2) + 1)

/-- The slots `pq.sink(i, n)` accesses, in order, in 64-bit machine
arithmetic.  Per loop iteration (Go source order): `r < n && compare(r, j)`
reads slots `r` and `j` only when `r < n`; `compare(j, i)` reads the chosen
child and `i`; a swap touches `i` and the chosen child; the loop then
continues from the child.  The `j < 0` test fires exactly after overflow and
breaks before any access.  The `i < child` test on the recursive calls is a
termination device only: `sink64_progress_left`/`sink64_progress_right`
prove it always holds when `i` and `n` are values of Go `int` variables,
so the recorded trace is exact there. -/
def sink64 (c : Int → Int → Bool) (i n : Int) : List Int :=
  if hlc : leftChild64 i < n then
    if leftChild64 i < 0 then []
    else
      if hr : wrap64 (leftChild64 i + 1) < n ∧
          c (wrap64 (leftChild64 i + 1)) (leftChild64 i) = true then
        if c (wrap64 (leftChild64 i + 1)) i = true then
          if hij : i < wrap64 (leftChild64 i + 1) then
            wrap64 (leftChild64 i + 1) :: leftChild64 i ::
              wrap64 (leftChild64 i + 1) :: i :: i :: wrap64 (leftChild64 i + 1) ::
              sink64 c (wrap64 (leftChild64 i + 1)) n
          else [wrap64 (leftChild64 i + 1), leftChild64 i,
            wrap64 (leftChild64 i + 1), i, i, wrap64 (leftChild64 i + 1)]
        else [wrap64 (leftChild64 i + 1), leftChild64 i,
          wrap64 (leftChild64 i + 1), i]
      else
        if c (leftChild64 i) i = true then
          if hij : i < leftChild64 i then
            (if wrap64 (leftChild64 i + 1) < n
              then [wrap64 (leftChild64 i + 1), leftChild64 i] else []) ++
              leftChild64 i :: i :: i :: leftChild64 i ::
              sink64 c (leftChild64 i) n
          else
            (if wrap64 (leftChild64 i + 1) < n
              then [wrap64 (leftChild64 i + 1), leftChild64 i] else []) ++
              [leftChild64 i, i, i, leftChild64 i]
        else
          (if wrap64 (leftChild64 i + 1) < n
            then [wrap64 (leftChild64 i + 1), leftChild64 i] else []) ++
            [leftChild64 i, i]
  else []
termination_by (n - i).toNat
decreasing_by
  · omega
  · omega

theorem wrap64_eq {x : Int} (h1 : -(2 ^ 63) ≤ x) (h2 : x ≤ 2 ^ 63 - 1) :
    wrap64 x = x := by
  show (x + 2 ^ 63) % 2 ^ 64 - 2 ^ 63 = x
  omega

/-- For valid (64-bit-representable) non-negative `i` that does not make
`2i + 1` overflow, `leftChild64` computes `2i + 1` exactly. -/
theorem leftChild64_eq {i : Int} (h1 : 0 ≤ i) (h2 : i ≤ 2 ^ 62 - 1) :
    leftChild64 i = 2 * i + 1 := by
  show wrap64 (wrap64 (i * 2) + 1) = 2 * i + 1
  have h3 : wrap64 (i * 2) = i * 2 := wrap64_eq (by omega) (by omega)
  rw [h3, wrap64_eq (by omega) (by omega)]
  omega

/-- For valid non-negative `i` with `2i + 1` overflowing, `leftChild64 i`
is negative: the overflow is observable as a negative index. -/
theorem leftChild64_neg {i : Int} (h1 : 2 ^ 62 ≤ i) (h2 : i ≤ 2 ^ 63 - 1) :
    leftChild64 i < 0 := by
  show wrap64 (wrap64 (i * 2) + 1) < 0
  have hw1 : wrap64 (i * 2) = i * 2 - 2 ^ 64 := by
    show (i * 2 + 2 ^ 63) % 2 ^ 64 - 2 ^ 63 = i * 2 - 2 ^ 64
    omega
  rw [hw1, wrap64_eq (by omega) (by omega)]
  omega

/-- After overflow of `2i + 1`, `sink` terminates without accessing any
slot: the recorded access trace is empty. -/
theorem sink64_overflow (c : Int → Int → Bool) (i n : Int)
    (h : leftChild64 i < 0) : sink64 c i n = [] := by
  rw [sink64]
  by_cases hlc : leftChild64 i < n
  · rw [dif_pos hlc, if_pos h]
  · rw [dif_neg hlc]

/-- All slots `sink` accesses lie in `[0, n)`, for any starting slot `i`
and bound `n` that are values of Go `int` variables with `0 ≤ i`. -/
theorem sink64_in_range (c : Int → Int → Bool) :
    ∀ gas i n, (n - i).toNat < gas → 0 ≤ i → i ≤ 2 ^ 63 - 1 →
      n ≤ 2 ^ 63 - 1 → ∀ a ∈ sink64 c i n, 0 ≤ a ∧ a < n := by
  intro gas
  induction gas with
  | zero =>
    intro i n hg
    omega
  | succ g ih =>
    intro i n hg hi0 hiMax hnMax a ha
    rw [sink64] at ha
    by_cases hlc : leftChild64 i < n
    · rw [dif_pos hlc] at ha
      by_cases hover : leftChild64 i < 0
      · rw [if_pos hover] at ha
        simp at ha
      · rw [if_neg hover] at ha
        have hiSmall : i ≤ 2 ^ 62 - 1 := by
          by_contra hbig
          exact hover (leftChild64_neg (by omega) hiMax)
        have hlceq : leftChild64 i = 2 * i + 1 := leftChild64_eq hi0 hiSmall
        have hlcn : leftChild64 i < n := hlc
        have hreq : wrap64 (leftChild64 i + 1) = 2 * i + 2 := by
          rw [hlceq, wrap64_eq (by omega) (by omega)]
          omega
        by_cases hr : wrap64 (leftChild64 i + 1) < n ∧
            c (wrap64 (leftChild64 i + 1)) (leftChild64 i) = true
        · rw [dif_pos hr] at ha
          have hrn : wrap64 (leftChild64 i + 1) < n := hr.1
          by_cases hg1 : c (wrap64 (leftChild64 i + 1)) i = true
          · rw [if_pos hg1, dif_pos (show i < wrap64 (leftChild64 i + 1) by omega)] at ha
            simp only [List.mem_cons] at ha
            rcases ha with rfl | rfl | rfl | rfl | rfl | rfl | hmem
            · omega
            · omega
            · omega
            · omega
            · omega
            · omega
            · exact ih (wrap64 (leftChild64 i + 1)) n (by omega) (by omega)
                (by omega) hnMax a hmem
          · rw [if_neg hg1] at ha
            simp only [List.mem_cons, List.not_mem_nil, or_false] at ha
            rcases ha with rfl | rfl | rfl | rfl
            · omega
            · omega
            · omega
            · omega
        · rw [dif_neg hr] at ha
          by_cases hg1 : c (leftChild64 i) i = true
          · rw [if_pos hg1, dif_pos (show i < leftChild64 i by omega)] at ha
            rw [List.mem_append] at ha
            rcases ha with hpre | ha
            · by_cases hrn : wrap64 (leftChild64 i + 1) < n
              · rw [if_pos hrn] at hpre
                simp only [List.mem_cons, List.not_mem_nil, or_false] at hpre
                rcases hpre with rfl | rfl
                · omega
                · omega
              · rw [if_neg hrn] at hpre
                simp at hpre
            · simp only [List.mem_cons] at ha
              rcases ha with rfl | rfl | rfl | rfl | hmem
              · omega
              · omega
              · omega
              · omega
              · exact ih (leftChild64 i) n (by omega) (by omega) (by omega)
                  hnMax a hmem
          · rw [if_neg hg1] at ha
            rw [List.mem_append] at ha
            rcases ha with hpre | ha
            · by_cases hrn : wrap64 (leftChild64 i + 1) < n
              · rw [if_pos hrn] at hpre
                simp only [List.mem_cons, List.not_mem_nil, or_false] at hpre
                rcases hpre with rfl | rfl
                · omega
                · omega
              · rw [if_neg hrn] at hpre
                simp at hpre
            · simp only [List.mem_cons, List.not_mem_nil, or_false] at ha
              rcases ha with rfl | rfl
              · omega
              · omega
    · rw [dif_neg hlc] at ha
      simp at ha

/-- The termination guard of `sink64`'s left-child recursion always holds
for valid inputs: the loop strictly descends the tree. -/
theorem sink64_progress_left {i n : Int} (hi0 : 0 ≤ i)
    (hover : ¬ leftChild64 i < 0) (hiMax : i ≤ 2 ^ 63 - 1) :
    i < leftChild64 i := by
  have hiSmall : i ≤ 2 ^ 62 - 1 := by
    by_contra hbig
    exact hover (leftChild64_neg (by omega) hiMax)
  rw [leftChild64_eq hi0 hiSmall]
  omega

/-- The termination guard of `sink64`'s right-child recursion always holds
for valid inputs. -/
theorem sink64_progress_right {i n : Int} (hi0 : 0 ≤ i)
    (hover : ¬ leftChild64 i < 0) (hiMax : i ≤ 2 ^ 63 - 1)
    (hlc : leftChild64 i < n) (hn : n ≤ 2 ^ 63 - 1) :
    i < wrap64 (leftChild64 i + 1) := by
  have hiSmall : i ≤ 2 ^ 62 - 1 := by
    by_contra hbig
    exact hover (leftChild64_neg (by omega) hiMax)
  rw [leftChild64_eq hi0 hiSmall] at hlc ⊢
  rw [wrap64_eq (by omega) (by omega)]
  omega

/-- The queue states reachable from a freshly constructed queue (Go
`NewKeyedPriorityQueue`, whose non-panicking branch returns the empty
state) by any sequence of the four mutating operations, all driven by the
one comparison function fixed at construction. -/
inductive Reachable (cmp : V → V → Bool) : KPQ K V → Prop where
  | init : Reachable cmp { pm := [], im := [], vals := [] }
  | push (k : K) (v : V) {q : KPQ K V} :
      Reachable cmp q → Reachable cmp (Push cmp q k v).1
  | pop {q : KPQ K V} : Reachable cmp q → Reachable cmp (Pop cmp q).1
  | update (k : K) (v : V) {q : KPQ K V} :
      Reachable cmp q → Reachable cmp (Update cmp q k v).1
  | remove (k : K) {q : KPQ K V} :
      Reachable cmp q → Reachable cmp (Remove cmp q k)

theorem keysInv_empty : KeysInv ({ pm := [], im := [], vals := [] } : KPQ K V) := by
  refine ⟨?_, ?_, rfl, rfl, ?_, ?_, ?_⟩
  · intro m hm
    simp at hm
  · intro k j hk
    exact Option.noConfusion hk
  · intro k
    rfl
  · simp [keysNodup]
  · simp [keysNodup]

/-- Every reachable state satisfies the coherence invariant, for any
comparison function whatsoever. -/
theorem reachable_keysInv {cmp : V → V → Bool} {q : KPQ K V}
    (hr : Reachable cmp q) : KeysInv q := by
  induction hr with
  | init => exact keysInv_empty
  | push k v hq ih => exact push_keysInv cmp ih k v
  | pop hq ih => exact pop_keysInv cmp ih
  | update k v hq ih => exact update_keysInv cmp ih k v
  | remove k hq ih => exact remove_keysInv cmp ih k

/-- Every reachable state satisfies the heap invariant, provided the
comparison function is a strict weak ordering. -/
theorem reachable_heapInv {cmp : V → V → Bool} (hswo : IsSWO cmp)
    {q : KPQ K V} (hr : Reachable cmp q) : HeapInv cmp q := by
  induction hr with
  | init =>
    intro m hm h0
    simp at hm
  | push k v hq ih => exact push_heapInv cmp hswo (reachable_keysInv hq) ih k v
  | pop hq ih => exact pop_heapInv cmp hswo (reachable_keysInv hq) ih
  | update k v hq ih => exact update_heapInv cmp hswo (reachable_keysInv hq) ih k v
  | remove k hq ih => exact remove_heapInv cmp hswo (reachable_keysInv hq) ih k

/-! ### Repeated extraction (claim C3) -/

/-- Push a whole list of key/value pairs, left to right, keeping only the
states (each Go `Push` call's error result is dropped). -/
def pushAll (cmp : V → V → Bool) (q : KPQ K V) (ps : List (K × V)) : KPQ K V :=
  ps.foldl (fun s p => (Push cmp s p.1 p.2).1) q

/-- Call Go `Pop` `n` times in sequence, recording each call's three
results. -/
def popList (cmp : V → V → Bool) (q : KPQ K V) : Nat → List (K × V × Bool)
  | 0 => []
  | Nat.succ m =>
    ((Pop cmp q).2.1, (Pop cmp q).2.2.1, (Pop cmp q).2.2.2) ::
      popList cmp (Pop cmp q).1 m

theorem pushAll_reachable {cmp : V → V → Bool} :
    ∀ (ps : List (K × V)) {q : KPQ K V}, Reachable cmp q →
      Reachable cmp (pushAll cmp q ps) := by
  intro ps
  induction ps with
  | nil =>
    intro q hq
    exact hq
  | cons p t ih =>
    intro q hq
    exact ih (Reachable.push p.1 p.2 hq)

/-- Pushing pairwise-fresh keys appends their pairs, in order, to the
value map. -/
theorem pushAll_vals {cmp : V → V → Bool} :
    ∀ (ps : List (K × V)) {q : KPQ K V}, KeysInv q →
      (∀ p ∈ ps, mapGet q.im p.1 = none) →
      (ps.map Prod.fst).Nodup →
      (pushAll cmp q ps).vals = q.vals ++ ps := by
  intro ps
  induction ps with
  | nil =>
    intro q hq habs hnd
    simp [pushAll]
  | cons p t ih =>
    intro q hq habs hnd
    obtain ⟨k, v⟩ := p
    have hk : mapGet q.im k = none := habs (k, v) (by simp)
    have hvk : mapGet q.vals k = none := by
      have := hq.dom k
      rw [hk] at this
      cases hv : mapGet q.vals k
      · rfl
      · rw [hv] at this
        exact absurd this (by simp)
    have hstep : (Push cmp q k v).1.vals = q.vals ++ [(k, v)] := by
      rw [Push_eq_absent v hk]
      show (swim cmp _ q.pm.length).vals = _
      rw [swim_vals]
      exact mapSet_append_of_none v hvk
    have hinv1 : KeysInv (Push cmp q k v).1 := push_keysInv cmp hq k v
    have habs1 : ∀ p ∈ t, mapGet (Push cmp q k v).1.im p.1 = none := by
      intro p hp
      have hdom := hinv1.dom p.1
      have hvalnone : mapGet (Push cmp q k v).1.vals p.1 = none := by
        rw [hstep, mapGet_eq_none_iff]
        intro hmem
        rw [List.map_append] at hmem
        rcases List.mem_append.mp hmem with hinprev | hlast
        · have habsim := habs p (List.mem_cons_of_mem _ hp)
          have hqvnone : mapGet q.vals p.1 = none := by
            have hd := hq.dom p.1
            rw [habsim] at hd
            cases hv : mapGet q.vals p.1
            · rfl
            · rw [hv] at hd
              exact absurd hd (by simp)
          rw [mapGet_eq_none_iff] at hqvnone
          exact hqvnone hinprev
        · simp only [List.map_cons, List.map_nil, List.mem_singleton] at hlast
          simp only [List.map_cons, List.nodup_cons] at hnd
          exact hnd.1 (hlast ▸ List.mem_map_of_mem Prod.fst hp)
      rw [hvalnone] at hdom
      cases him : mapGet (Push cmp q k v).1.im p.1
      · rfl
      · rw [him] at hdom
        exact absurd hdom.symm (by simp)
    have hnd1 : (t.map Prod.fst).Nodup := by
      simp only [List.map_cons, List.nodup_cons] at hnd
      exact hnd.2
    show (pushAll cmp (Push cmp q k v).1 t).vals = q.vals ++ (k, v) :: t
    rw [ih hinv1 habs1 hnd1, hstep, List.append_assoc]
    rfl

/-- What a single successful `Pop` returns and leaves behind: the flag is
`true`, the returned pair is a stored entry, the remaining value map is the
old one without the popped key, the heap shrinks by one slot, and no
remaining value has priority over the popped one. -/
theorem pop_spec {cmp : V → V → Bool} (hswo : IsSWO cmp) {q : KPQ K V}
    (hkeys : KeysInv q) (hheap : HeapInv cmp q) (h0 : ¬ q.pm.length = 0) :
    (Pop cmp q).2.2.2 = true ∧
    mapGet q.vals (Pop cmp q).2.1 = some (Pop cmp q).2.2.1 ∧
    (Pop cmp q).1.vals = mapDel q.vals (Pop cmp q).2.1 ∧
    (Pop cmp q).1.pm.length = q.pm.length - 1 ∧
    (∀ k' v', mapGet (Pop cmp q).1.vals k' = some v' →
      cmp v' (Pop cmp q).2.2.1 = false) := by
  set n := q.pm.length - 1 with hn
  have hlen : q.pm.length = n + 1 := by omega
  have hroot : (mapGet q.im (q.pm.getD 0 default)).isSome := by
    rw [hkeys.im_pm 0 (by omega)]
    rfl
  have hrootv : ∃ v0, mapGet q.vals (q.pm.getD 0 default) = some v0 := by
    have hd := hkeys.dom (q.pm.getD 0 default)
    rw [hroot] at hd
    cases hv : mapGet q.vals (q.pm.getD 0 default)
    · rw [hv] at hd
      exact absurd hd (by simp)
    · exact ⟨_, rfl⟩
  obtain ⟨v0, hv0⟩ := hrootv
  have hq1vals : (sink cmp (swap q 0 n) 0 n).vals = q.vals := by
    rw [sink_vals cmp (n + 1) 0 n _ (by omega)]
    rfl
  have hq1len : (sink cmp (swap q 0 n) 0 n).pm.length = n + 1 := by
    rw [sink_pm_length cmp (n + 1) 0 n _ (by omega), swap_pm_length]
    omega
  have hvr : (Pop cmp q).1.vals = mapDel q.vals (q.pm.getD 0 default) := by
    rw [Pop_eq_cons h0]
    show mapDel (sink cmp (swap q 0 n) 0 n).vals (q.pm.getD 0 default) = _
    rw [hq1vals]
  refine ⟨?_, ?_, ?_, ?_, ?_⟩
  · rw [Pop_eq_cons h0]
  · rw [Pop_eq_cons h0]
    show mapGet q.vals (q.pm.getD 0 default)
      = some ((mapGet q.vals (q.pm.getD 0 default)).getD default)
    rw [hv0]
    rfl
  · rw [show (Pop cmp q).2.1 = q.pm.getD 0 default by rw [Pop_eq_cons h0]]
    exact hvr
  · rw [Pop_eq_cons h0]
    show ((sink cmp (swap q 0 n) 0 n).pm.take n).length = q.pm.length - 1
    rw [List.length_take, hq1len]
    omega
  · intro k' v' hk'
    rw [hvr] at hk'
    rw [Pop_eq_cons h0]
    show cmp v' ((mapGet q.vals (q.pm.getD 0 default)).getD default) = false
    rw [hv0]
    show cmp v' v0 = false
    have hne : k' ≠ q.pm.getD 0 default := by
      intro hx
      rw [hx, mapGet_mapDel_self] at hk'
      exact Option.noConfusion hk'
    rw [mapGet_mapDel_ne _ hne] at hk'
    have him : (mapGet q.im k').isSome := by
      rw [← hkeys.dom k', hk']
      rfl
    have him2 : ∃ m, mapGet q.im k' = some m := by
      cases hm : mapGet q.im k'
      · rw [hm] at him
        exact absurd him (by simp)
      · exact ⟨_, rfl⟩
    obtain ⟨m, hm⟩ := him2
    obtain ⟨hmlt, hpm⟩ := hkeys.pm_im k' m hm
    have hval : val q m = v' := by
      show (mapGet q.vals (q.pm.getD m default)).getD default = v'
      rw [hpm, hk']
      rfl
    have hval0 : val q 0 = v0 := by
      show (mapGet q.vals (q.pm.getD 0 default)).getD default = v0
      rw [hv0]
      rfl
    have hdom := heap_root hswo hheap m hmlt
    rw [hval, hval0] at hdom
    exact hdom

/-- Popping a full heap dry: every call reports `true`, the emitted values
are in strict priority order, and the emitted pairs are exactly the stored
ones.  The pairwise-comparability hypothesis is the spec's "pairwise
distinct priorities" (no ties under a strict weak ordering). -/
theorem popList_spec {cmp : V → V → Bool} (hswo : IsSWO cmp) :
    ∀ (len : Nat) (q : KPQ K V), KeysInv q → HeapInv cmp q →
      q.pm.length = len →
      List.Pairwise (fun p p' => cmp p.2 p'.2 = true ∨ cmp p'.2 p.2 = true) q.vals →
      (∀ t ∈ popList cmp q len, t.2.2 = true) ∧
      List.Pairwise (fun t t' => cmp t.2.1 t'.2.1 = true) (popList cmp q len) ∧
      List.Perm ((popList cmp q len).map (fun t => (t.1, t.2.1))) q.vals := by
  intro len
  induction len with
  | zero =>
    intro q hkeys hheap hlen hcomp
    have : q.vals = [] := by
      rw [← List.length_eq_zero, hkeys.vals_len, hlen]
    refine ⟨?_, ?_, ?_⟩
    · intro t ht
      simp [popList] at ht
    · simp [popList]
    · rw [this]
      simp [popList]
  | succ m ih =>
    intro q hkeys hheap hlen hcomp
    have h0 : ¬ q.pm.length = 0 := by omega
    obtain ⟨hflag, hmem, hvals, hlen', hdom⟩ := pop_spec hswo hkeys hheap h0
    set k := (Pop cmp q).2.1 with hkdef
    set v := (Pop cmp q).2.2.1 with hvdef
    set q' := (Pop cmp q).1 with hq'def
    have hkeys' : KeysInv q' := pop_keysInv cmp hkeys
    have hheap' : HeapInv cmp q' := pop_heapInv cmp hswo hkeys hheap
    have hlen'' : q'.pm.length = m := by omega
    have hsub : q'.vals.Sublist q.vals := by
      rw [hvals]
      exact mapDel_sublist q.vals k
    have hcomp' :
        List.Pairwise (fun p p' => cmp p.2 p'.2 = true ∨ cmp p'.2 p.2 = true) q'.vals :=
      List.Pairwise.sublist hsub hcomp
    obtain ⟨ihflag, ihpair, ihperm⟩ := ih q' hkeys' hheap' hlen'' hcomp'
    have hheadpair : ∀ t ∈ popList cmp q' m, cmp v t.2.1 = true := by
      intro t ht
      have hpairmem : (t.1, t.2.1) ∈ q'.vals := by
        rw [← List.Perm.mem_iff ihperm]
        exact List.mem_map_of_mem (fun t => (t.1, t.2.1)) ht
      have hget : mapGet q'.vals t.1 = some t.2.1 :=
        mapGet_some_of_mem hkeys'.vals_nodup hpairmem
      have hnotbetter : cmp t.2.1 v = false := hdom t.1 t.2.1 hget
      have htk : t.1 ≠ k := by
        intro hx
        rw [hvals, hx, mapGet_mapDel_self] at hget
        exact Option.noConfusion hget
      have hqmem : (t.1, t.2.1) ∈ q.vals := by
        rw [hvals] at hpairmem
        exact List.Sublist.mem hpairmem (mapDel_sublist q.vals k)
      have hkmem : (k, v) ∈ q.vals := mem_of_mapGet_some hmem
      have hRne : ((k, v) : K × V) ≠ (t.1, t.2.1) := by
        intro hx
        exact htk (congrArg Prod.fst hx).symm
      have hR := hcomp.forall (fun x y hxy => Or.symm hxy) hkmem hqmem hRne
      rcases hR with hR | hR
      · exact hR
      · rw [hnotbetter] at hR
        exact Bool.noConfusion hR
    refine ⟨?_, ?_, ?_⟩
    · intro t ht
      rw [show popList cmp q (m + 1) = (k, v, (Pop cmp q).2.2.2) :: popList cmp q' m
        from rfl] at ht
      rcases List.mem_cons.mp ht with rfl | ht
      · exact hflag
      · exact ihflag t ht
    · rw [show popList cmp q (m + 1) = (k, v, (Pop cmp q).2.2.2) :: popList cmp q' m
        from rfl]
      rw [List.pairwise_cons]
      exact ⟨fun t ht => hheadpair t ht, ihpair⟩
    · rw [show popList cmp q (m + 1) = (k, v, (Pop cmp q).2.2.2) :: popList cmp q' m
        from rfl]
      rw [List.map_cons]
      have hperm2 : List.Perm q.vals ((k, v) :: mapDel q.vals k) :=
        perm_mapDel hkeys.vals_nodup hmem
      refine List.Perm.trans ?_ hperm2.symm
      apply List.Perm.cons
      rw [← hvals]
      exact ihperm

/-! ### Helpers shared by the claim theorems and witnesses -/

/-- The strict `<` comparator on `Nat` used by the repository's tests to
build min-first queues. -/
def natLt : Nat → Nat → Bool := fun x y => decide (x < y)

theorem natLt_swo : IsSWO natLt := by
  refine ⟨?_, ?_, ?_⟩
  · intro x
    simp [natLt]
  · intro x y z hxy hyz
    simp only [natLt, decide_eq_true_eq] at *
    omega
  · intro x y z hxy hyz
    simp only [natLt, decide_eq_false_iff_not] at *
    omega

/-- On a state whose value array already satisfies the heap property up to
`n`, `sink` stops immediately: both possible first compares fail. -/
theorem sink_of_heap {cmp : V → V → Bool} {q : KPQ K V} {i n : Nat}
    (hh : Heap cmp (val q) n) : sink cmp q i n = q := by
  rw [sink]
  split
  · rename_i hlc
    have h1 : i < leftChild i := lt_leftChild i
    split
    · rename_i h2
      rw [if_neg]
      intro hx
      have hlink := hh (leftChild i + 1) h2.1 (by omega)
      rw [parent_leftChild_succ] at hlink
      exact Bool.noConfusion (hlink.symm.trans hx)
    · rw [if_neg]
      intro hx
      have hlink := hh (leftChild i) hlc (by omega)
      rw [parent_leftChild] at hlink
      exact Bool.noConfusion (hlink.symm.trans hx)
  · rfl

/-- Overwriting the value of the key in slot `i` of a heap leaves all links
intact except those incident to `i`, and keeps `i`'s children not better
than `i`'s old parent (through the old value, by negative transitivity). -/
theorem update_pexc {cmp : V → V → Bool} (hswo : IsSWO cmp) {q : KPQ K V}
    (h : KeysInv q) (hh : HeapInv cmp q) {k : K} {i : Nat}
    (hk : mapGet q.im k = some i) (v : V) :
    PExc cmp (val ({ q with vals := mapSet q.vals k v } : KPQ K V))
      q.pm.length i := by
  have hval0ne : ∀ m, m < q.pm.length → m ≠ i →
      val ({ q with vals := mapSet q.vals k v } : KPQ K V) m = val q m := by
    intro m hm hmne
    show (mapGet (mapSet q.vals k v) (q.pm.getD m default)).getD default = _
    have hne : q.pm.getD m default ≠ k := by
      intro hx
      have him := h.im_pm m hm
      rw [hx, hk] at him
      exact hmne (Option.some.injEq _ _ ▸ him).symm
    rw [mapGet_mapSet_ne _ _ hne]
    rfl
  constructor
  · intro m hm hm0 hmi hpmi2
    have hpmlt : parent m < m := parent_lt hm0
    rw [hval0ne m hm hmi, hval0ne (parent m) (by omega) hpmi2]
    exact hh m hm hm0
  · intro m hm hpm hi0
    have hm0 : 0 < m := by
      rcases Nat.eq_zero_or_pos m with rfl | hx
      · rw [show parent 0 = 0 by simp [parent]] at hpm
        omega
      · exact hx
    have him : i < m := lt_of_parent_eq hm0 hpm
    have hpi : parent i < i := parent_lt hi0
    rw [hval0ne m hm (Nat.ne_of_gt him), hval0ne (parent i) (by omega) (Nat.ne_of_lt hpi)]
    have h1 := hh m hm hm0
    rw [hpm] at h1
    have h2 := hh i (by omega) hi0
    exact hswo.2.2 _ _ _ h1 h2

/-! Concrete evaluation lemmas for the spec's worked example (min-first
queue via `natLt`; keys A, B, C are 1, 2, 3): each lemma unfolds one
operation, discharging the loop guards of `swim`/`sink` by computation. -/

theorem evalPush1 :
    Push natLt ({ pm := [], im := [], vals := [] } : KPQ Nat Nat) 1 10
      = ({ pm := [1], im := [(1, 0)], vals := [(1, 10)] }, none) := by
  rw [Push_eq_absent 10 (by decide), swim, dif_neg (by decide)]
  decide

theorem evalPush2 :
    Push natLt ({ pm := [1], im := [(1, 0)], vals := [(1, 10)] } : KPQ Nat Nat) 2 8
      = ({ pm := [2, 1], im := [(1, 1), (2, 0)], vals := [(1, 10), (2, 8)] }, none) := by
  rw [Push_eq_absent 8 (by decide), swim, dif_pos (by decide), swim, dif_neg (by decide)]
  decide

theorem evalPush3 :
    Push natLt ({ pm := [2, 1], im := [(1, 1), (2, 0)], vals := [(1, 10), (2, 8)] } : KPQ Nat Nat) 3 9
      = ({ pm := [2, 1, 3], im := [(1, 1), (2, 0), (3, 2)], vals := [(1, 10), (2, 8), (3, 9)] }, none) := by
  rw [Push_eq_absent 9 (by decide), swim, dif_neg (by decide)]
  decide

theorem evalABC :
    pushAll natLt ({ pm := [], im := [], vals := [] } : KPQ Nat Nat) [(1, 10), (2, 8), (3, 9)]
      = { pm := [2, 1, 3], im := [(1, 1), (2, 0), (3, 2)], vals := [(1, 10), (2, 8), (3, 9)] } := by
  show (Push natLt (Push natLt (Push natLt ({ pm := [], im := [], vals := [] } : KPQ Nat Nat) 1 10).1 2 8).1 3 9).1 = _
  rw [evalPush1]
  rw [show (({ pm := [1], im := [(1, 0)], vals := [(1, 10)] } : KPQ Nat Nat), (none : Option (KpqError Nat))).1 = { pm := [1], im := [(1, 0)], vals := [(1, 10)] } from rfl]
  rw [evalPush2]
  rw [show (({ pm := [2, 1], im := [(1, 1), (2, 0)], vals := [(1, 10), (2, 8)] } : KPQ Nat Nat), (none : Option (KpqError Nat))).1 = { pm := [2, 1], im := [(1, 1), (2, 0)], vals := [(1, 10), (2, 8)] } from rfl]
  rw [evalPush3]

theorem evalUpdateC :
    Update natLt ({ pm := [2, 1, 3], im := [(1, 1), (2, 0), (3, 2)], vals := [(1, 10), (2, 8), (3, 9)] } : KPQ Nat Nat) 3 1
      = ({ pm := [3, 1, 2], im := [(1, 1), (2, 2), (3, 0)], vals := [(1, 10), (2, 8), (3, 1)] }, none) := by
  rw [Update_eq_present 1 (show mapGet ({ pm := [2, 1, 3], im := [(1, 1), (2, 0), (3, 2)], vals := [(1, 10), (2, 8), (3, 9)] } : KPQ Nat Nat).im 3 = some 2 by decide)]
  rw [swim, dif_pos (by decide), swim, dif_neg (by decide)]
  rw [sink, dif_neg (by decide)]
  decide

/-! ### The claims -/

/-- C1: for every queue state reachable by any sequence of the public
operations from a fresh queue, and every non-root slot `i < len(pm)`,
`cmp(vals[pm[i]], vals[pm[parent(i)]])` is false — no child is strictly
better than its parent — assuming the caller's comparator is a strict weak
ordering. -/
theorem c1_heap_invariant {cmp : V → V → Bool} {q : KPQ K V}
    (hswo : IsSWO cmp) (hr : Reachable cmp q) :
    ∀ i, i < q.pm.length → 0 < i →
      cmp (val q i) (val q (parent i)) = false :=
  reachable_heapInv hswo hr

theorem c1_heap_invariant_witness :
    IsSWO natLt ∧
    Reachable natLt (Push natLt ({ pm := [], im := [], vals := [] } : KPQ Nat Nat) 1 5).1 ∧
    (∀ i, i < (Push natLt ({ pm := [], im := [], vals := [] } : KPQ Nat Nat) 1 5).1.pm.length →
      0 < i →
      natLt (val (Push natLt ({ pm := [], im := [], vals := [] } : KPQ Nat Nat) 1 5).1 i)
        (val (Push natLt ({ pm := [], im := [], vals := [] } : KPQ Nat Nat) 1 5).1 (parent i))
        = false) :=
  ⟨natLt_swo, Reachable.push 1 5 Reachable.init,
    c1_heap_invariant natLt_swo (Reachable.push 1 5 Reachable.init)⟩

/-- C2: after every public operation the three containers describe the same
key set and `pm`/`im` are exact inverses: `pm[im[k]] = k` for every present
key, `im[pm[i]] = i` for every slot, and the three lengths agree — for
every reachable state and any comparison function. -/
theorem c2_containers_bijection {cmp : V → V → Bool} {q : KPQ K V}
    (hr : Reachable cmp q) :
    (∀ k i, mapGet q.im k = some i → i < q.pm.length ∧ q.pm.getD i default = k) ∧
    (∀ i, i < q.pm.length → mapGet q.im (q.pm.getD i default) = some i) ∧
    q.im.length = q.pm.length ∧ q.vals.length = q.pm.length :=
  ⟨(reachable_keysInv hr).pm_im, (reachable_keysInv hr).im_pm,
    (reachable_keysInv hr).im_len, (reachable_keysInv hr).vals_len⟩

theorem c2_containers_bijection_witness :
    Reachable natLt (Push natLt ({ pm := [], im := [], vals := [] } : KPQ Nat Nat) 7 3).1 ∧
    ((∀ k i, mapGet (Push natLt ({ pm := [], im := [], vals := [] } : KPQ Nat Nat) 7 3).1.im k = some i →
        i < (Push natLt ({ pm := [], im := [], vals := [] } : KPQ Nat Nat) 7 3).1.pm.length ∧
        (Push natLt ({ pm := [], im := [], vals := [] } : KPQ Nat Nat) 7 3).1.pm.getD i default = k) ∧
      (∀ i, i < (Push natLt ({ pm := [], im := [], vals := [] } : KPQ Nat Nat) 7 3).1.pm.length →
        mapGet (Push natLt ({ pm := [], im := [], vals := [] } : KPQ Nat Nat) 7 3).1.im
          ((Push natLt ({ pm := [], im := [], vals := [] } : KPQ Nat Nat) 7 3).1.pm.getD i default) = some i) ∧
      (Push natLt ({ pm := [], im := [], vals := [] } : KPQ Nat Nat) 7 3).1.im.length
        = (Push natLt ({ pm := [], im := [], vals := [] } : KPQ Nat Nat) 7 3).1.pm.length ∧
      (Push natLt ({ pm := [], im := [], vals := [] } : KPQ Nat Nat) 7 3).1.vals.length
        = (Push natLt ({ pm := [], im := [], vals := [] } : KPQ Nat Nat) 7 3).1.pm.length) :=
  ⟨Reachable.push 7 3 Reachable.init,
    c2_containers_bijection (Reachable.push 7 3 Reachable.init)⟩

/-- C3: pushing any list of pairs with distinct keys and pairwise distinct
(comparable) priorities onto a fresh queue and then popping `n` times
yields all the pairs, each `Pop` reporting `true`, with every emitted value
having priority over all values emitted after it. -/
theorem c3_extraction_order {cmp : V → V → Bool} (hswo : IsSWO cmp)
    (ps : List (K × V)) (hkeys : (ps.map Prod.fst).Nodup)
    (hcomp : List.Pairwise (fun p p' => cmp p.2 p'.2 = true ∨ cmp p'.2 p.2 = true) ps) :
    (∀ t ∈ popList cmp (pushAll cmp { pm := [], im := [], vals := [] } ps) ps.length,
      t.2.2 = true) ∧
    List.Pairwise (fun t t' => cmp t.2.1 t'.2.1 = true)
      (popList cmp (pushAll cmp { pm := [], im := [], vals := [] } ps) ps.length) ∧
    List.Perm
      ((popList cmp (pushAll cmp { pm := [], im := [], vals := [] } ps) ps.length).map
        (fun t => (t.1, t.2.1)))
      ps := by
  have hreach : Reachable cmp (pushAll cmp ({ pm := [], im := [], vals := [] } : KPQ K V) ps) :=
    pushAll_reachable ps Reachable.init
  have hkeysInv := reachable_keysInv hreach
  have hheap := reachable_heapInv hswo hreach
  have habs : ∀ p ∈ ps, mapGet ({ pm := [], im := [], vals := [] } : KPQ K V).im p.1 = none := by
    intro p hp
    rfl
  have hvals : (pushAll cmp ({ pm := [], im := [], vals := [] } : KPQ K V) ps).vals = ps := by
    rw [pushAll_vals ps keysInv_empty habs hkeys]
    rfl
  have hlen : (pushAll cmp ({ pm := [], im := [], vals := [] } : KPQ K V) ps).pm.length
      = ps.length := by
    rw [← hkeysInv.vals_len, hvals]
  have hmain := popList_spec hswo ps.length _ hkeysInv hheap hlen (by rw [hvals]; exact hcomp)
  rw [hvals] at hmain
  exact hmain

theorem c3_extraction_order_witness :
    IsSWO natLt ∧
    (([((1 : Nat), (2 : Nat)), (2, 1), (3, 3)].map Prod.fst).Nodup) ∧
    List.Pairwise (fun p p' => natLt p.2 p'.2 = true ∨ natLt p'.2 p.2 = true)
      [((1 : Nat), (2 : Nat)), (2, 1), (3, 3)] ∧
    ((∀ t ∈ popList natLt (pushAll natLt { pm := [], im := [], vals := [] }
        [((1 : Nat), (2 : Nat)), (2, 1), (3, 3)]) ([((1 : Nat), (2 : Nat)), (2, 1), (3, 3)].length),
      t.2.2 = true) ∧
      List.Pairwise (fun t t' => natLt t.2.1 t'.2.1 = true)
        (popList natLt (pushAll natLt { pm := [], im := [], vals := [] }
          [((1 : Nat), (2 : Nat)), (2, 1), (3, 3)]) ([((1 : Nat), (2 : Nat)), (2, 1), (3, 3)].length)) ∧
      List.Perm
        ((popList natLt (pushAll natLt { pm := [], im := [], vals := [] }
          [((1 : Nat), (2 : Nat)), (2, 1), (3, 3)]) ([((1 : Nat), (2 : Nat)), (2, 1), (3, 3)].length)).map
          (fun t => (t.1, t.2.1)))
        [((1 : Nat), (2 : Nat)), (2, 1), (3, 3)]) :=
  ⟨natLt_swo, by decide, by decide,
    c3_extraction_order natLt_swo [((1 : Nat), (2 : Nat)), (2, 1), (3, 3)]
      (by decide) (by decide)⟩

/-- C4: failed mutating operations are atomic and carry the documented
error kind: on any state, `Push` with a present key returns
`KeyAlreadyExistsError` and the state completely unchanged, and `Update`
with an absent key returns `KeyNotFoundError` and the state completely
unchanged. -/
theorem c4_failed_ops_atomic {cmp : V → V → Bool} (q : KPQ K V) (k : K) (v : V) :
    ((mapGet q.im k).isSome = true →
      Push cmp q k v = (q, some (KpqError.keyAlreadyExists k))) ∧
    (mapGet q.im k = none →
      Update cmp q k v = (q, some (KpqError.keyNotFound k))) := by
  constructor
  · intro h
    cases hk : mapGet q.im k with
    | none =>
      rw [hk] at h
      exact absurd h (by simp)
    | some i => exact Push_eq_present v hk
  · intro h
    exact Update_eq_absent v h

theorem c4_failed_ops_atomic_witness :
    (mapGet ({ pm := [1], im := [(1, 0)], vals := [(1, 5)] } : KPQ Nat Nat).im 1).isSome = true ∧
    mapGet ({ pm := [1], im := [(1, 0)], vals := [(1, 5)] } : KPQ Nat Nat).im 2 = none ∧
    Push natLt ({ pm := [1], im := [(1, 0)], vals := [(1, 5)] } : KPQ Nat Nat) 1 7
      = ({ pm := [1], im := [(1, 0)], vals := [(1, 5)] }, some (KpqError.keyAlreadyExists 1)) ∧
    Update natLt ({ pm := [1], im := [(1, 0)], vals := [(1, 5)] } : KPQ Nat Nat) 2 7
      = ({ pm := [1], im := [(1, 0)], vals := [(1, 5)] }, some (KpqError.keyNotFound 2)) :=
  ⟨by decide, by decide,
    (c4_failed_ops_atomic ({ pm := [1], im := [(1, 0)], vals := [(1, 5)] } : KPQ Nat Nat) 1 7).1
      (by decide),
    (c4_failed_ops_atomic ({ pm := [1], im := [(1, 0)], vals := [(1, 5)] } : KPQ Nat Nat) 2 7).2
      (by decide)⟩

/-- C5: `Update` on a present key `k` replaces `k`'s stored value with `v`
(leaving every other key's value unchanged), returns no error, performs a
swim followed by a sink from `k`'s slot, restores the heap property, and at
most one of the two sift directions moves anything — the other is a no-op.
In particular, in the min-first queue built by pushing A ↦ 10, B ↦ 8,
C ↦ 9 (keys 1, 2, 3), `Peek` yields (B, 8), and after `Update C 1` it
yields (C, 1). -/
theorem c5_update_replaces_and_restores {cmp : V → V → Bool} {q : KPQ K V}
    {k : K} {i : Nat} (hswo : IsSWO cmp) (hr : Reachable cmp q)
    (hk : mapGet q.im k = some i) (v : V) :
    (Update cmp q k v).2 = none ∧
    (Update cmp q k v).1
      = sink cmp (swim cmp { q with vals := mapSet q.vals k v } i) i
          (swim cmp { q with vals := mapSet q.vals k v } i).vals.length ∧
    mapGet (Update cmp q k v).1.vals k = some v ∧
    (∀ k', k' ≠ k → mapGet (Update cmp q k v).1.vals k' = mapGet q.vals k') ∧
    (∀ m, m < (Update cmp q k v).1.pm.length → 0 < m →
      cmp (val (Update cmp q k v).1 m) (val (Update cmp q k v).1 (parent m)) = false) ∧
    (swim cmp { q with vals := mapSet q.vals k v } i
        = { q with vals := mapSet q.vals k v } ∨
      sink cmp (swim cmp { q with vals := mapSet q.vals k v } i) i
          (swim cmp { q with vals := mapSet q.vals k v } i).vals.length
        = swim cmp { q with vals := mapSet q.vals k v } i) ∧
    Peek (pushAll natLt { pm := [], im := [], vals := [] } [(1, 10), (2, 8), (3, 9)])
      = (2, 8, true) ∧
    Peek (Update natLt (pushAll natLt { pm := [], im := [], vals := [] }
        [(1, 10), (2, 8), (3, 9)]) 3 1).1
      = (3, 1, true) := by
  have hkeys := reachable_keysInv hr
  have hheap := reachable_heapInv hswo hr
  obtain ⟨hi, hpmi⟩ := hkeys.pm_im k i hk
  have hvk : (mapGet q.vals k).isSome := by
    rw [hkeys.dom k, hk]
    rfl
  have hB : (swim cmp ({ q with vals := mapSet q.vals k v } : KPQ K V) i).vals.length
      = q.pm.length := by
    rw [swim_vals]
    show (mapSet q.vals k v).length = q.pm.length
    rw [length_mapSet_isSome _ hvk, hkeys.vals_len]
  have hv : (Update cmp q k v).1.vals = mapSet q.vals k v := by
    rw [Update_eq_present v hk]
    show (sink cmp (swim cmp ({ q with vals := mapSet q.vals k v } : KPQ K V) i) i
      (swim cmp ({ q with vals := mapSet q.vals k v } : KPQ K V) i).vals.length).vals = _
    rw [sink_vals cmp ((swim cmp ({ q with vals := mapSet q.vals k v } : KPQ K V) i).vals.length + 1)
      i _ _ (by omega), swim_vals]
  refine ⟨?_, ?_, ?_, ?_, ?_, ?_, ?_, ?_⟩
  · rw [Update_eq_present v hk]
  · rw [Update_eq_present v hk]
  · rw [hv, mapGet_mapSet_self]
  · intro k' hne
    rw [hv, mapGet_mapSet_ne _ _ hne]
  · exact update_heapInv cmp hswo hkeys hheap k v
  · by_cases hg : 0 < i ∧
        compare cmp ({ q with vals := mapSet q.vals k v } : KPQ K V) i (parent i) = true
    · right
      have hp : PExc cmp (val ({ q with vals := mapSet q.vals k v } : KPQ K V))
          q.pm.length i := update_pexc hswo hkeys hheap hk v
      have hheap1 : Heap cmp
          (val (swim cmp ({ q with vals := mapSet q.vals k v } : KPQ K V) i))
          q.pm.length := by
        rw [val_swim cmp i _
          (show i < ({ q with vals := mapSet q.vals k v } : KPQ K V).pm.length from hi)]
        rw [aswim, if_pos (show 0 < i ∧
          cmp (val ({ q with vals := mapSet q.vals k v } : KPQ K V) i)
            (val ({ q with vals := mapSet q.vals k v } : KPQ K V) (parent i)) = true from hg)]
        exact aswim_Q hswo (parent i) _ q.pm.length
          (by have := parent_lt hg.1; omega)
          (swim_step hswo hp hi hg.1 hg.2)
      rw [hB]
      exact sink_of_heap hheap1
    · left
      rw [swim, dif_neg hg]
  · rw [evalABC]
    decide
  · rw [evalABC, evalUpdateC]
    decide

theorem c5_update_replaces_and_restores_witness :
    IsSWO natLt ∧
    Reachable natLt (pushAll natLt ({ pm := [], im := [], vals := [] } : KPQ Nat Nat)
      [(1, 10), (2, 8), (3, 9)]) ∧
    mapGet (pushAll natLt ({ pm := [], im := [], vals := [] } : KPQ Nat Nat)
      [(1, 10), (2, 8), (3, 9)]).im 3 = some 2 ∧
    ((Update natLt (pushAll natLt ({ pm := [], im := [], vals := [] } : KPQ Nat Nat)
        [(1, 10), (2, 8), (3, 9)]) 3 1).2 = none ∧
      mapGet (Update natLt (pushAll natLt ({ pm := [], im := [], vals := [] } : KPQ Nat Nat)
        [(1, 10), (2, 8), (3, 9)]) 3 1).1.vals 3 = some 1) :=
  ⟨natLt_swo, pushAll_reachable _ Reachable.init,
    by rw [evalABC]; decide,
    (c5_update_replaces_and_restores natLt_swo (pushAll_reachable _ Reachable.init)
      (show mapGet (pushAll natLt ({ pm := [], im := [], vals := [] } : KPQ Nat Nat)
        [(1, 10), (2, 8), (3, 9)]).im 3 = some 2 by rw [evalABC]; decide) 1).1,
    (c5_update_replaces_and_restores natLt_swo (pushAll_reachable _ Reachable.init)
      (show mapGet (pushAll natLt ({ pm := [], im := [], vals := [] } : KPQ Nat Nat)
        [(1, 10), (2, 8), (3, 9)]).im 3 = some 2 by rw [evalABC]; decide) 1).2.2.1⟩

/-- C6: on a queue with zero entries, `Peek`, `PeekKey`, `PeekValue` and
`Pop` each report `false` as their last result (an explicit "no value"
signal rather than an error), and `Pop` leaves the state unchanged (the
peeks are read-only by construction). -/
theorem c6_empty_queue_signaling {cmp : V → V → Bool} {q : KPQ K V}
    (h : q.pm.length = 0) :
    (Peek q).2.2 = false ∧ (PeekKey q).2 = false ∧ (PeekValue q).2 = false ∧
    (Pop cmp q).2.2.2 = false ∧ (Pop cmp q).1 = q := by
  refine ⟨?_, ?_, ?_, ?_, ?_⟩
  · rw [Peek, if_pos h]
  · rw [PeekKey, if_pos h]
  · rw [PeekValue, if_pos h]
  · rw [Pop_eq_empty h]
  · rw [Pop_eq_empty h]

theorem c6_empty_queue_signaling_witness :
    (({ pm := [], im := [], vals := [] } : KPQ Nat Nat).pm.length = 0) ∧
    ((Peek ({ pm := [], im := [], vals := [] } : KPQ Nat Nat)).2.2 = false ∧
      (PeekKey ({ pm := [], im := [], vals := [] } : KPQ Nat Nat)).2 = false ∧
      (PeekValue ({ pm := [], im := [], vals := [] } : KPQ Nat Nat)).2 = false ∧
      (Pop natLt ({ pm := [], im := [], vals := [] } : KPQ Nat Nat)).2.2.2 = false ∧
      (Pop natLt ({ pm := [], im := [], vals := [] } : KPQ Nat Nat)).1
        = ({ pm := [], im := [], vals := [] } : KPQ Nat Nat)) :=
  ⟨rfl, c6_empty_queue_signaling rfl⟩

/-- C7: `Remove` on an absent key is a no-op, not an error: the whole state
is unchanged, and so are `Len` and `Peek` in particular. -/
theorem c7_remove_absent_noop {cmp : V → V → Bool} {q : KPQ K V} {k : K}
    (h : mapGet q.im k = none) :
    Remove cmp q k = q ∧ Len (Remove cmp q k) = Len q ∧
    Peek (Remove cmp q k) = Peek q := by
  have heq : Remove cmp q k = q := Remove_eq_absent h
  exact ⟨heq, by rw [heq], by rw [heq]⟩

theorem c7_remove_absent_noop_witness :
    mapGet ({ pm := [1], im := [(1, 0)], vals := [(1, 5)] } : KPQ Nat Nat).im 9 = none ∧
    (Remove natLt ({ pm := [1], im := [(1, 0)], vals := [(1, 5)] } : KPQ Nat Nat) 9
        = ({ pm := [1], im := [(1, 0)], vals := [(1, 5)] } : KPQ Nat Nat) ∧
      Len (Remove natLt ({ pm := [1], im := [(1, 0)], vals := [(1, 5)] } : KPQ Nat Nat) 9)
        = Len ({ pm := [1], im := [(1, 0)], vals := [(1, 5)] } : KPQ Nat Nat) ∧
      Peek (Remove natLt ({ pm := [1], im := [(1, 0)], vals := [(1, 5)] } : KPQ Nat Nat) 9)
        = Peek ({ pm := [1], im := [(1, 0)], vals := [(1, 5)] } : KPQ Nat Nat)) :=
  ⟨by decide, c7_remove_absent_noop (by decide)⟩

/-- C8: the constructor fails fatally (Go panic, modeled as `Except.error`)
iff the supplied comparison function is nil (modeled as `none`); with any
actual function it returns the empty queue and never panics. -/
theorem c8_constructor_panic (cmp : Option (V → V → Bool)) :
    ((∃ s, (NewKeyedPriorityQueue cmp : Except String (KPQ K V)) = Except.error s)
      ↔ cmp = none) ∧
    (∀ f, cmp = some f →
      (NewKeyedPriorityQueue cmp : Except String (KPQ K V))
        = Except.ok { pm := [], im := [], vals := [] }) := by
  constructor
  · constructor
    · intro hs
      obtain ⟨s, hs⟩ := hs
      cases cmp with
      | none => rfl
      | some f => exact Except.noConfusion hs
    · intro h
      subst h
      exact ⟨_, rfl⟩
  · intro f hf
    subst hf
    rfl

theorem c8_constructor_panic_witness :
    (∃ s, (NewKeyedPriorityQueue none : Except String (KPQ Nat Nat)) = Except.error s) ∧
    (NewKeyedPriorityQueue (some natLt) : Except String (KPQ Nat Nat))
      = Except.ok { pm := [], im := [], vals := [] } :=
  ⟨(@c8_constructor_panic Nat Nat _ _ _ none).1.mpr rfl,
    (@c8_constructor_panic Nat Nat _ _ _ (some natLt)).2 natLt rfl⟩

/-- C9: in `sink`, the left-child index `2i + 1` is computed in fixed-width
machine integers; an overflow (negative index) is treated as "no such
child": the loop terminates without touching the array, and for every slot
`i ≥ 0` and bound `n` representable as Go `int` values, every slot `sink`
accesses lies in `[0, n)`. -/
theorem c9_sink_overflow_guard (c : Int → Int → Bool) (i n : Int)
    (hi0 : 0 ≤ i) (hiMax : i ≤ 2 ^ 63 - 1) (hnMax : n ≤ 2 ^ 63 - 1) :
    (leftChild64 i < 0 → sink64 c i n = []) ∧
    (∀ a ∈ sink64 c i n, 0 ≤ a ∧ a < n) :=
  ⟨fun h => sink64_overflow c i n h,
    sink64_in_range c ((n - i).toNat + 1) i n (by omega) hi0 hiMax hnMax⟩

theorem c9_sink_overflow_guard_witness :
    ((0 : Int) ≤ 2 ^ 62 ∧ (2 ^ 62 : Int) ≤ 2 ^ 63 - 1 ∧ (5 : Int) ≤ 2 ^ 63 - 1) ∧
    (leftChild64 (2 ^ 62) < 0 → sink64 (fun x y => true) (2 ^ 62) 5 = []) ∧
    (∀ a ∈ sink64 (fun x y => true) (2 ^ 62) 5, 0 ≤ a ∧ a < 5) :=
  ⟨⟨by norm_num, by norm_num, by norm_num⟩,
    (c9_sink_overflow_guard (fun x y => true) (2 ^ 62) 5
      (by norm_num) (by norm_num) (by norm_num)).1,
    (c9_sink_overflow_guard (fun x y => true) (2 ^ 62) 5
      (by norm_num) (by norm_num) (by norm_num)).2⟩

/-- C10: on a queue with zero entries, the non-boolean results of `Pop`,
`Peek`, `PeekKey` and `PeekValue` are exactly the zero values (`default`)
of the key and value types; only the `false` flag distinguishes this from a
genuine entry whose key and value equal the zero values, as pushing the
zero-valued pair shows. -/
theorem c10_zero_value_returns {cmp : V → V → Bool} {q : KPQ K V}
    (h : q.pm.length = 0) :
    Pop cmp q = (q, default, default, false) ∧
    Peek q = (default, default, false) ∧
    PeekKey q = (default, false) ∧
    PeekValue q = (default, false) ∧
    Peek (Push natLt { pm := [], im := [], vals := [] } (default : Nat) (default : Nat)).1
      = (default, default, true) := by
  refine ⟨?_, ?_, ?_, ?_, ?_⟩
  · rw [Pop_eq_empty h]
  · rw [Peek, if_pos h]
  · rw [PeekKey, if_pos h]
  · rw [PeekValue, if_pos h]
  · rw [Push_eq_absent (default : Nat) (by decide), swim, dif_neg (by decide)]
    decide

theorem c10_zero_value_returns_witness :
    (({ pm := [], im := [], vals := [] } : KPQ Nat Nat).pm.length = 0) ∧
    (Pop natLt ({ pm := [], im := [], vals := [] } : KPQ Nat Nat)
        = ({ pm := [], im := [], vals := [] }, default, default, false) ∧
      Peek ({ pm := [], im := [], vals := [] } : KPQ Nat Nat) = (default, default, false) ∧
      PeekKey ({ pm := [], im := [], vals := [] } : KPQ Nat Nat) = (default, false) ∧
      PeekValue ({ pm := [], im := [], vals := [] } : KPQ Nat Nat) = (default, false) ∧
      Peek (Push natLt { pm := [], im := [], vals := [] } (default : Nat) (default : Nat)).1
        = (default, default, true)) :=
  ⟨rfl, c10_zero_value_returns rfl⟩

end Kpq
